import Mathlib

/-!
Verification of the packet-stream-codec repository (src/lib.rs).

The codec frames (payload, metadata) pairs onto an asynchronous byte channel:
a 1-byte flags field, a 4-byte big-endian unsigned length, a 4-byte
big-endian signed id, then `length` body bytes; a 9-byte all-zero header is
the end-of-stream marker.

The Rust encoder (`CodecSink`) and decoder (`CodecStream`) are resumable
state machines driven through partial-write / partial-read primitives.  We
embed them shallowly: the underlying writer is modelled by the list of bytes
it has accepted so far plus a schedule of write results, and the underlying
reader by the list of bytes it still holds plus a schedule of read results.
A schedule entry is either a "not ready" suspension or a bound on how many
bytes the channel transfers in one call; an exhausted schedule means the
channel transfers as much as requested.  Machine integers are modelled as
`Nat` / `Int` with explicit `% 2 ^ 32` where the Rust code truncates, and
the `transmute`-based big-endian reinterpretations of the source are
modelled by explicit big-endian byte helpers.
-/

set_option linter.unusedVariables false

/-- The error kinds of `futures_io::ErrorKind` that the codec produces. -/
inductive ErrKind where
  | writeZero
  | unexpectedEof
  | invalidData
  | invalidInput
deriving DecidableEq, Repr

/-- Big-endian bytes of a 32-bit unsigned value; models
`transmute::<_, [u8; 4]>(n.to_be())` from the source. -/
def u32ToBeBytes (n : Nat) : List Nat :=
  [n / 2 ^ 24 % 256, n / 2 ^ 16 % 256, n / 2 ^ 8 % 256, n % 256]

/-- The 32-bit unsigned value of 4 big-endian bytes; models
`u32::from_be(transmute::<[u8; 4], u32>(buf))` from the source. -/
def beU32 (l : List Nat) : Nat :=
  l.getD 0 0 * 2 ^ 24 + l.getD 1 0 * 2 ^ 16 + l.getD 2 0 * 2 ^ 8 + l.getD 3 0

/-- Big-endian bytes of a 32-bit signed value (two's complement). -/
def i32ToBeBytes (i : Int) : List Nat :=
  u32ToBeBytes (i % 2 ^ 32).toNat

/-- The 32-bit signed value of 4 big-endian bytes; models
`i32::from_be(transmute::<[u8; 4], i32>(buf))` from the source. -/
def beI32 (l : List Nat) : Int :=
  if beU32 l < 2 ^ 31 then (beU32 l : Int) else (beU32 l : Int) - 2 ^ 32

/-- Bitmask for the stream flag (`pub static STREAM: u8 = 0b0000_1000`). -/
def STREAM : Nat := 8

/-- Bitmask for the end flag (`pub static END: u8 = 0b0000_0100`). -/
def END : Nat := 4

/-- Bitmask for the type flags (`pub static TYPE: u8 = 0b0000_0011`). -/
def TYPE : Nat := 3

/-- Value of the binary type. -/
def TYPE_BINARY : Nat := 0

/-- Value of the string type. -/
def TYPE_STRING : Nat := 1

/-- Value of the json type. -/
def TYPE_JSON : Nat := 2

/-- The unused fourth possible value. -/
def TYPE_UNUSED : Nat := 3

/-- `const ZEROS: [u8; 9]` from the source. -/
def ZEROS : List Nat := [0, 0, 0, 0, 0, 0, 0, 0, 0]

/-- The metadata of a packet: a `u8` flags byte and an `i32` id. -/
structure Metadata where
  flags : Nat
  id : Int
deriving DecidableEq, Repr

/-- `Metadata::is_stream_packet`. -/
def Metadata.is_stream_packet (m : Metadata) : Bool :=
  m.flags &&& STREAM != 0

/-- `Metadata::is_end_packet`. -/
def Metadata.is_end_packet (m : Metadata) : Bool :=
  m.flags &&& END != 0

/-- `Metadata::is_buffer_packet`. -/
def Metadata.is_buffer_packet (m : Metadata) : Bool :=
  m.flags &&& TYPE == TYPE_BINARY

/-- `Metadata::is_string_packet`. -/
def Metadata.is_string_packet (m : Metadata) : Bool :=
  m.flags &&& TYPE == TYPE_STRING

/-- `Metadata::is_json_packet`. -/
def Metadata.is_json_packet (m : Metadata) : Bool :=
  m.flags &&& TYPE == TYPE_JSON

/-- `Metadata::is_unused_packet`. -/
def Metadata.is_unused_packet (m : Metadata) : Bool :=
  m.flags &&& TYPE == TYPE_UNUSED

/-- `Metadata::to_be`: `flags.to_be()` is the identity on `u8`, and
`id.to_be()` reorders the bytes of `id` so that the later native-order
`transmute` at the write site emits big-endian bytes.  In this embedding
integers are abstract values and the write site serializes with the explicit
big-endian helper `i32ToBeBytes`, so the value carried by the metadata is
unchanged; the byte-order conversion lives entirely in the helper. -/
def Metadata.to_be (m : Metadata) : Metadata :=
  { flags := m.flags, id := m.id }

/-- `WritePacketState` from the source: the sub-field of the packet being
written, with the per-field byte offset. -/
inductive WritePacketState where
  | Flags (m : Metadata)
  | Length (id : Int) (offset : Nat)
  | Id (id : Int) (offset : Nat)
  | Data (offset : Nat)
deriving DecidableEq, Repr

/-- `SinkState` from the source. -/
inductive SinkState where
  | Idle
  | Buffering (w : WritePacketState)
  | EndOfStream (offset : Nat)
  | Shutdown
deriving DecidableEq, Repr

/-- `CodecSink`: the underlying `AsyncWrite` writer is modelled by the list
of bytes it has accepted so far (`written`). -/
structure CodecSink where
  written : List Nat
  bytes : Option (List Nat)
  state : SinkState
deriving DecidableEq, Repr

/-- `CodecSink::new`, wrapping a fresh writer. -/
def CodecSink.new : CodecSink :=
  { written := [], bytes := none, state := .Idle }

/-- Outcome of `Sink::start_send`: success, a recoverable error, or a
panic (precondition violation). -/
inductive SendOutcome where
  | ok (s : CodecSink)
  | fail (e : ErrKind)
  | panicked
deriving DecidableEq, Repr

/-- `CodecSink::start_send`.  The length check mirrors the source's
`item.0.as_ref().len() as u32 > u32::max_value()`: the `usize` length is
truncated to 32 bits (`% 2 ^ 32`) and compared against `u32::MAX`. -/
def CodecSink.start_send (s : CodecSink) (payload : List Nat) (m : Metadata) :
    SendOutcome :=
  match s.state with
  | .Idle =>
    if payload.length % 2 ^ 32 > 2 ^ 32 - 1 then
      .fail .invalidInput
    else
      .ok { s with bytes := some payload, state := .Buffering (.Flags m.to_be) }
  | _ => .panicked

/-- One schedule entry for the underlying writer: a "not ready" suspension,
or acceptance of up to `n` bytes on the next `poll_write` call. -/
inductive WriteStep where
  | pending
  | accept (n : Nat)
deriving DecidableEq, Repr

/-- One `poll_write` call against the writer schedule: returns how many of
the `requested` bytes the writer accepted (`none` = not ready) and how many
schedule entries were consumed.  An exhausted schedule accepts everything
requested. -/
def pollWrite (requested : Nat) (sched : List WriteStep) : Option Nat × Nat :=
  match sched with
  | [] => (some requested, 0)
  | .pending :: _ => (none, 1)
  | .accept n :: _ => (some (min n requested), 1)

/-- Result reported by `CodecSink::do_poll_flush` / `do_poll_close`. -/
inductive FlushOutcome where
  | ready
  | pending
  | fail (e : ErrKind)
deriving DecidableEq, Repr

/-- One step of the sink machine: either the drive continues (a recursive
call or loop iteration in the source) or it returns. -/
inductive SinkStepRes where
  | cont (closing : Bool) (s : CodecSink) (used : Nat)
  | done (out : FlushOutcome) (s : CodecSink) (used : Nat) (zeroWrite : Bool)
deriving DecidableEq, Repr

/-- One step of `CodecSink::do_poll_flush` (`closing = false`) /
`do_poll_close` (`closing = true`): a single `poll_write` attempt or a
single state transition.  Each branch mirrors one arm of the source; the
source's per-field `while` loops and recursive calls are the `cont`
results, re-entering the machine at the updated state.  `do_poll_close` on
a `Buffering` state first drains the in-flight packet via `do_poll_flush`;
here that nested call is flattened: the `Buffering` write steps are
mode-independent and a closing machine that reaches `Idle` proceeds to the
end-of-stream header, which is observably the same drive. -/
def sinkStep : Bool → CodecSink → List WriteStep → SinkStepRes
  | false, ⟨w, b, .Idle⟩, _ =>
    -- do_poll_flush, Idle: self.writer.poll_flush (modelled as immediately ready)
    .done .ready ⟨w, b, .Idle⟩ 0 false
  | true, ⟨w, b, .Idle⟩, _ =>
    -- do_poll_close, Idle: transition to EndOfStream(0)
    .cont true ⟨w, b, .EndOfStream 0⟩ 0
  | c, ⟨w, b, .Buffering (.Flags m)⟩, sched =>
    -- poll_write(&[flags])
    match pollWrite 1 sched with
    | (none, u) => .done .pending ⟨w, b, .Buffering (.Flags m)⟩ u false
    | (some 0, u) => .done (.fail .writeZero) ⟨w, b, .Buffering (.Flags m)⟩ u true
    | (some (_ + 1), u) => .cont c ⟨w ++ [m.flags], b, .Buffering (.Length m.id 0)⟩ u
  | c, ⟨w, b, .Buffering (.Length id offset)⟩, sched =>
    if offset < 4 then
      -- poll_write(&len_bytes[offset..])
      let buf := (u32ToBeBytes ((b.getD []).length % 2 ^ 32)).drop offset
      match pollWrite buf.length sched with
      | (none, u) => .done .pending ⟨w, b, .Buffering (.Length id offset)⟩ u false
      | (some 0, u) => .done (.fail .writeZero) ⟨w, b, .Buffering (.Length id offset)⟩ u true
      | (some (k + 1), u) =>
        .cont c ⟨w ++ buf.take (k + 1), b, .Buffering (.Length id (offset + (k + 1)))⟩ u
    else
      .cont c ⟨w, b, .Buffering (.Id id 0)⟩ 0
  | c, ⟨w, b, .Buffering (.Id id offset)⟩, sched =>
    if offset < 4 then
      -- poll_write(&id_bytes[offset..])
      let buf := (i32ToBeBytes id).drop offset
      match pollWrite buf.length sched with
      | (none, u) => .done .pending ⟨w, b, .Buffering (.Id id offset)⟩ u false
      | (some 0, u) => .done (.fail .writeZero) ⟨w, b, .Buffering (.Id id offset)⟩ u true
      | (some (k + 1), u) =>
        .cont c ⟨w ++ buf.take (k + 1), b, .Buffering (.Id id (offset + (k + 1)))⟩ u
    else
      .cont c ⟨w, b, .Buffering (.Data 0)⟩ 0
  | c, ⟨w, b, .Buffering (.Data offset)⟩, sched =>
    if offset < (b.getD []).length then
      -- poll_write(&packet_ref[offset..])
      let buf := (b.getD []).drop offset
      match pollWrite buf.length sched with
      | (none, u) => .done .pending ⟨w, b, .Buffering (.Data offset)⟩ u false
      | (some 0, u) => .done (.fail .writeZero) ⟨w, b, .Buffering (.Data offset)⟩ u true
      | (some (k + 1), u) =>
        .cont c ⟨w ++ buf.take (k + 1), b, .Buffering (.Data (offset + (k + 1)))⟩ u
    else
      -- packet fully written: back to Idle (then flush returns / close continues)
      .cont c ⟨w, b, .Idle⟩ 0
  | false, ⟨w, b, .EndOfStream o⟩, _ =>
    -- do_poll_flush on EndOfStream defers to do_poll_close
    .cont true ⟨w, b, .EndOfStream o⟩ 0
  | true, ⟨w, b, .EndOfStream offset⟩, sched =>
    if offset < 9 then
      -- poll_write(&ZEROS[offset..])
      let buf := ZEROS.drop offset
      match pollWrite buf.length sched with
      | (none, u) => .done .pending ⟨w, b, .EndOfStream offset⟩ u false
      | (some 0, u) => .done (.fail .writeZero) ⟨w, b, .EndOfStream offset⟩ u true
      | (some (k + 1), u) =>
        .cont true ⟨w ++ buf.take (k + 1), b, .EndOfStream (offset + (k + 1))⟩ u
    else
      .cont true ⟨w, b, .Shutdown⟩ 0
  | false, ⟨w, b, .Shutdown⟩, _ =>
    -- do_poll_flush on Shutdown defers to do_poll_close
    .cont true ⟨w, b, .Shutdown⟩ 0
  | true, ⟨w, b, .Shutdown⟩, _ =>
    -- self.writer.poll_close (modelled as immediately ready)
    .done .ready ⟨w, b, .Shutdown⟩ 0 false

/-- Rank of a sink configuration, for the termination measure of `drive`.
Every `cont` step either consumes a schedule entry or strictly lowers this
rank. -/
def sinkRank (closing : Bool) (b : Option (List Nat)) : SinkState → Nat
  | .Idle => if closing then 9 else 0
  | .Buffering (.Flags _) => 16
  | .Buffering (.Length _ o) => if o < 4 then 15 else 14
  | .Buffering (.Id _ o) => if o < 4 then 13 else 12
  | .Buffering (.Data o) => if o < (b.getD []).length then 11 else 10
  | .EndOfStream o => if closing then (if o < 9 then 8 else 7) else 20
  | .Shutdown => if closing then 6 else 20

/-- `pollWrite` accepts at most the requested bytes and consumes at most
one schedule entry; a zero-entry schedule is consumed greedily. -/
theorem pollWrite_spec (requested : Nat) (sched : List WriteStep) (k u : Nat)
    (h : pollWrite requested sched = (some k, u)) :
    k ≤ requested ∧ u ≤ sched.length ∧ (u = 0 → k = requested) := by
  match sched with
  | [] =>
    simp [pollWrite] at h
    omega
  | .pending :: rest => simp [pollWrite] at h
  | .accept n :: rest =>
    simp [pollWrite] at h
    obtain ⟨h1, h2⟩ := h
    subst h1 h2
    refine ⟨Nat.min_le_right _ _, by simp, by omega⟩

/-- A `cont` step of the sink machine strictly decreases the drive
measure. -/
theorem sinkStep_cont_decreases {c : Bool} {s : CodecSink} {sched : List WriteStep}
    {c' : Bool} {s' : CodecSink} {u : Nat}
    (h : sinkStep c s sched = .cont c' s' u) :
    21 * (sched.drop u).length + sinkRank c' s'.bytes s'.state <
      21 * sched.length + sinkRank c s.bytes s.state := by
  obtain ⟨w, b, st⟩ := s
  match c, st with
  | false, .Idle => simp [sinkStep] at h
  | true, .Idle =>
    simp [sinkStep] at h
    obtain ⟨h1, h2, h3⟩ := h
    subst h1 h2 h3
    simp [sinkRank]
  | c, .Buffering (.Flags m) =>
    simp only [sinkStep] at h
    match hw : pollWrite 1 sched with
    | (none, u0) => rw [hw] at h; simp at h
    | (some 0, u0) => rw [hw] at h; simp at h
    | (some (k + 1), u0) =>
      rw [hw] at h
      simp at h
      obtain ⟨h1, h2, h3⟩ := h
      subst h1 h2 h3
      have hs := pollWrite_spec _ _ _ _ hw
      simp [sinkRank]
      omega
  | c, .Buffering (.Length id offset) =>
    simp only [sinkStep] at h
    by_cases h4 : offset < 4
    · rw [if_pos h4] at h
      match hw : pollWrite ((u32ToBeBytes ((b.getD []).length % 2 ^ 32)).drop offset).length sched with
      | (none, u0) => rw [hw] at h; simp at h
      | (some 0, u0) => rw [hw] at h; simp at h
      | (some (k + 1), u0) =>
        rw [hw] at h
        simp at h
        obtain ⟨h1, h2, h3⟩ := h
        subst h1 h2 h3
        have hs := pollWrite_spec _ _ _ _ hw
        have hlen : ((u32ToBeBytes ((b.getD []).length % 2 ^ 32)).drop offset).length = 4 - offset := by
          simp [u32ToBeBytes]
        rw [hlen] at hs
        simp [sinkRank, h4]
        split <;> omega
    · rw [if_neg h4] at h
      simp at h
      obtain ⟨h1, h2, h3⟩ := h
      subst h1 h2 h3
      simp [sinkRank, h4]
  | c, .Buffering (.Id id offset) =>
    simp only [sinkStep] at h
    by_cases h4 : offset < 4
    · rw [if_pos h4] at h
      match hw : pollWrite ((i32ToBeBytes id).drop offset).length sched with
      | (none, u0) => rw [hw] at h; simp at h
      | (some 0, u0) => rw [hw] at h; simp at h
      | (some (k + 1), u0) =>
        rw [hw] at h
        simp at h
        obtain ⟨h1, h2, h3⟩ := h
        subst h1 h2 h3
        have hs := pollWrite_spec _ _ _ _ hw
        have hlen : ((i32ToBeBytes id).drop offset).length = 4 - offset := by
          simp [i32ToBeBytes, u32ToBeBytes]
        rw [hlen] at hs
        simp [sinkRank, h4]
        split <;> omega
    · rw [if_neg h4] at h
      simp at h
      obtain ⟨h1, h2, h3⟩ := h
      subst h1 h2 h3
      simp [sinkRank, h4]
      split <;> omega
  | c, .Buffering (.Data offset) =>
    simp only [sinkStep] at h
    by_cases hd : offset < (b.getD []).length
    · rw [if_pos hd] at h
      match hw : pollWrite (((b.getD []).drop offset)).length sched with
      | (none, u0) => rw [hw] at h; simp at h
      | (some 0, u0) => rw [hw] at h; simp at h
      | (some (k + 1), u0) =>
        rw [hw] at h
        simp at h
        obtain ⟨h1, h2, h3⟩ := h
        subst h1 h2 h3
        have hs := pollWrite_spec _ _ _ _ hw
        have hlen : ((b.getD []).drop offset).length = (b.getD []).length - offset := by simp
        rw [hlen] at hs
        simp [sinkRank, hd]
        split <;> omega
    · rw [if_neg hd] at h
      simp at h
      obtain ⟨h1, h2, h3⟩ := h
      subst h1 h2 h3
      simp [sinkRank, hd]
      split <;> omega
  | false, .EndOfStream o =>
    simp [sinkStep] at h
    obtain ⟨h1, h2, h3⟩ := h
    subst h1 h2 h3
    simp [sinkRank]
    split <;> omega
  | true, .EndOfStream offset =>
    simp only [sinkStep] at h
    by_cases h9 : offset < 9
    · rw [if_pos h9] at h
      match hw : pollWrite ((ZEROS.drop offset)).length sched with
      | (none, u0) => rw [hw] at h; simp at h
      | (some 0, u0) => rw [hw] at h; simp at h
      | (some (k + 1), u0) =>
        rw [hw] at h
        simp at h
        obtain ⟨h1, h2, h3⟩ := h
        subst h1 h2 h3
        have hs := pollWrite_spec _ _ _ _ hw
        have hlen : (ZEROS.drop offset).length = 9 - offset := by simp [ZEROS]
        rw [hlen] at hs
        simp [sinkRank, h9]
        split <;> omega
    · rw [if_neg h9] at h
      simp at h
      obtain ⟨h1, h2, h3⟩ := h
      subst h1 h2 h3
      simp [sinkRank, h9]
  | false, .Shutdown =>
    simp [sinkStep] at h
    obtain ⟨h1, h2, h3⟩ := h
    subst h1 h2 h3
    simp [sinkRank]
  | true, .Shutdown => simp [sinkStep] at h

/-- A finished drive of the sink machine: its outcome, the machine
afterwards, the number of writer-schedule entries consumed, and whether
some `poll_write` call returned 0 while bytes remained to be written. -/
structure SinkRun where
  out : FlushOutcome
  sink : CodecSink
  used : Nat
  zeroWrite : Bool
deriving DecidableEq, Repr

/-- Drive the sink machine to its next returned result: iterate `sinkStep`
until the step returns.  `drive false` is `CodecSink::do_poll_flush`,
`drive true` is `CodecSink::do_poll_close`. -/
def drive (closing : Bool) (s : CodecSink) (sched : List WriteStep) : SinkRun :=
  match h : sinkStep closing s sched with
  | .done out s' u zw => ⟨out, s', u, zw⟩
  | .cont c' s' u =>
    let r := drive c' s' (sched.drop u)
    ⟨r.out, r.sink, u + r.used, r.zeroWrite⟩
termination_by 21 * sched.length + sinkRank closing s.bytes s.state
decreasing_by exact sinkStep_cont_decreases h

/-- `StreamState` from the source: the sub-field of the packet being read,
with the per-field offset and buffer, and for `Id` the already-decoded
packet length. -/
inductive StreamState where
  | Flags
  | Length (offset : Nat) (buf : List Nat)
  | Id (offset : Nat) (buf : List Nat) (length : Nat)
  | Data (length : Nat)
deriving DecidableEq, Repr

/-- `CodecStream`: the underlying `AsyncRead` reader is modelled by the
list of bytes it still holds (`input`). -/
structure CodecStream where
  input : List Nat
  state : StreamState
  metadata : Metadata
  data : Option (List Nat)
deriving DecidableEq, Repr

/-- `CodecStream::new`, wrapping the given reader. -/
def CodecStream.new (input : List Nat) : CodecStream :=
  { input := input, state := .Flags, metadata := ⟨0, 0⟩, data := none }

/-- One schedule entry for the underlying reader: a "not ready" suspension,
or delivery of up to `n` bytes on the next `poll_read` call. -/
inductive ReadStep where
  | pending
  | chunk (n : Nat)
deriving DecidableEq, Repr

/-- One `poll_read` call against the reader schedule: returns how many of
the `requested` bytes were read (`none` = not ready) and how many schedule
entries were consumed.  An exhausted schedule delivers as much as is
requested and available; a read never delivers more bytes than the reader
holds, and delivers 0 exactly when the reader is exhausted (end of input)
or a `chunk 0` entry models a broken source. -/
def pollRead (input : List Nat) (requested : Nat) (sched : List ReadStep) :
    Option Nat × Nat :=
  match sched with
  | [] => (some (min requested input.length), 0)
  | .pending :: _ => (none, 1)
  | .chunk n :: _ => (some (min n (min requested input.length)), 1)

/-- Write `bs` into `buf` starting at `offset`, leaving the rest unchanged:
models reading into the sub-slice `buf[offset..]`. -/
def setSlice (buf : List Nat) (offset : Nat) (bs : List Nat) : List Nat :=
  buf.take offset ++ bs ++ buf.drop (offset + bs.length)

/-- One step of the stream machine: the drive continues, suspends, errors,
ends the sequence, or yields an element. -/
inductive StreamStepRes where
  | cont (s : CodecStream) (used : Nat)
  | pend (s : CodecStream) (used : Nat)
  | fail (e : ErrKind) (s : CodecStream) (used : Nat) (zeroRead : Bool)
  | ended (s : CodecStream) (used : Nat)
  | item (d : List Nat) (m : Metadata) (s : CodecStream) (used : Nat)
deriving DecidableEq, Repr

/-- One step of `CodecStream::try_poll_next`: a single `poll_read` attempt
or a single state transition.  Each branch mirrors one arm of the source;
the source's per-field `while` loops and recursive calls are the `cont`
results, re-entering the machine at the updated state. -/
def streamStep : CodecStream → List ReadStep → StreamStepRes
  | ⟨input, .Flags, meta, dat⟩, sched =>
    -- poll_read(&mut flags_buf) with a 1-byte buffer
    match pollRead input 1 sched with
    | (none, u) => .pend ⟨input, .Flags, meta, dat⟩ u
    | (some 0, u) => .fail .unexpectedEof ⟨input, .Flags, meta, dat⟩ u true
    | (some (_ + 1), u) =>
      -- self.metadata.flags = u8::from_be(flags_buf[0])
      let flags := input.headD 0
      if (Metadata.mk flags meta.id).is_unused_packet then
        .fail .invalidData ⟨input.drop 1, .Flags, ⟨flags, meta.id⟩, dat⟩ u false
      else
        .cont ⟨input.drop 1, .Length 0 [0, 0, 0, 0], ⟨flags, meta.id⟩, dat⟩ u
  | ⟨input, .Length offset buf, meta, dat⟩, sched =>
    if offset < 4 then
      -- poll_read(&mut length_buf[offset..])
      match pollRead input (buf.length - offset) sched with
      | (none, u) => .pend ⟨input, .Length offset buf, meta, dat⟩ u
      | (some 0, u) => .fail .unexpectedEof ⟨input, .Length offset buf, meta, dat⟩ u true
      | (some (k + 1), u) =>
        .cont ⟨input.drop (k + 1), .Length (offset + (k + 1)) (setSlice buf offset (input.take (k + 1))),
               meta, dat⟩ u
    else
      -- length = u32::from_be(transmute(length_buf))
      .cont ⟨input, .Id 0 [0, 0, 0, 0] (beU32 buf), meta, dat⟩ 0
  | ⟨input, .Id offset buf length, meta, dat⟩, sched =>
    if offset < 4 then
      -- poll_read(&mut id_buf[offset..])
      match pollRead input (buf.length - offset) sched with
      | (none, u) => .pend ⟨input, .Id offset buf length, meta, dat⟩ u
      | (some 0, u) => .fail .unexpectedEof ⟨input, .Id offset buf length, meta, dat⟩ u true
      | (some (k + 1), u) =>
        .cont ⟨input.drop (k + 1), .Id (offset + (k + 1)) (setSlice buf offset (input.take (k + 1))) length,
               meta, dat⟩ u
    else
      -- id = i32::from_be(transmute(id_buf)); end-of-stream check
      let id := beI32 buf
      if length = 0 ∧ meta.flags = 0 ∧ id = 0 then
        .ended ⟨input, .Id offset buf length, ⟨meta.flags, id⟩, dat⟩ 0
      else
        -- self.data = Some(Vec::with_capacity(length))
        .cont ⟨input, .Data length, ⟨meta.flags, id⟩, some []⟩ 0
  | ⟨input, .Data length, meta, dat⟩, sched =>
    let data := dat.getD []
    if data.length < length then
      -- poll_read(&mut data_slice[old_len..])
      match pollRead input (length - data.length) sched with
      | (none, u) => .pend ⟨input, .Data length, meta, dat⟩ u
      | (some 0, u) => .fail .unexpectedEof ⟨input, .Data length, meta, none⟩ u true
      | (some (k + 1), u) =>
        .cont ⟨input.drop (k + 1), .Data length, meta, some (data ++ input.take (k + 1))⟩ u
    else
      -- packet complete: yield it and reset to Flags
      .item data meta ⟨input, .Flags, meta, none⟩ 0

/-- Rank of a stream state, for the termination measure of `tryPollNext`.
Every `cont` step either consumes a schedule entry, consumes input bytes,
or strictly lowers this rank. -/
def streamRank (dat : Option (List Nat)) : StreamState → Nat
  | .Flags => 9
  | .Length o _ => if o < 4 then 8 else 7
  | .Id o _ _ => if o < 4 then 6 else 5
  | .Data len => if (dat.getD []).length < len then 4 else 3

/-- `pollRead` reads at most the requested bytes and at most the available
bytes, and consumes at most one schedule entry; reading with an empty
schedule is greedy. -/
theorem pollRead_spec (input : List Nat) (requested : Nat) (sched : List ReadStep)
    (k u : Nat) (h : pollRead input requested sched = (some k, u)) :
    k ≤ requested ∧ k ≤ input.length ∧ u ≤ sched.length ∧
      (u = 0 → k = min requested input.length) := by
  match sched with
  | [] =>
    simp [pollRead] at h
    obtain ⟨h1, h2⟩ := h
    subst h1 h2
    refine ⟨Nat.min_le_left _ _, Nat.min_le_right _ _, by simp, fun _ => rfl⟩
  | .pending :: rest => simp [pollRead] at h
  | .chunk n :: rest =>
    simp [pollRead] at h
    obtain ⟨h1, h2⟩ := h
    subst h1 h2
    refine ⟨?_, ?_, by simp, by omega⟩
    · exact le_trans (Nat.min_le_right _ _) (Nat.min_le_left _ _)
    · exact le_trans (Nat.min_le_right _ _) (Nat.min_le_right _ _)

/-- A `cont` step of the stream machine strictly decreases the poll
measure. -/
theorem streamStep_cont_decreases {s : CodecStream} {sched : List ReadStep}
    {s' : CodecStream} {u : Nat}
    (h : streamStep s sched = .cont s' u) :
    10 * ((sched.drop u).length + s'.input.length) + streamRank s'.data s'.state <
      10 * (sched.length + s.input.length) + streamRank s.data s.state := by
  obtain ⟨input, st, meta, dat⟩ := s
  match st with
  | .Flags =>
    simp only [streamStep] at h
    split at h
    · simp at h
    · simp at h
    · split at h
      · simp at h
      · simp at h
        obtain ⟨h1, h2⟩ := h
        subst h1 h2
        rename_i x k u0 heq hflag
        have hs := pollRead_spec _ _ _ _ _ heq
        simp [streamRank]
        omega
  | .Length offset buf =>
    simp only [streamStep] at h
    split at h
    · split at h
      · simp at h
      · simp at h
      · simp at h
        obtain ⟨h1, h2⟩ := h
        subst h1 h2
        rename_i h4 x k u0 heq
        have hs := pollRead_spec _ _ _ _ _ heq
        simp [streamRank, h4]
        split <;> omega
    · simp at h
      obtain ⟨h1, h2⟩ := h
      subst h1 h2
      rename_i h4
      simp [streamRank, h4]
  | .Id offset buf length =>
    simp only [streamStep] at h
    split at h
    · split at h
      · simp at h
      · simp at h
      · simp at h
        obtain ⟨h1, h2⟩ := h
        subst h1 h2
        rename_i h4 x k u0 heq
        have hs := pollRead_spec _ _ _ _ _ heq
        simp [streamRank, h4]
        split <;> omega
    · split at h
      · simp at h
      · simp at h
        obtain ⟨h1, h2⟩ := h
        subst h1 h2
        rename_i h4 hne
        simp [streamRank, h4]
        split <;> omega
  | .Data length =>
    simp only [streamStep] at h
    split at h
    · split at h
      · simp at h
      · simp at h
      · simp at h
        obtain ⟨h1, h2⟩ := h
        subst h1 h2
        rename_i hd x k u0 heq
        have hs := pollRead_spec _ _ _ _ _ heq
        simp [streamRank, hd]
        split <;> omega
    · simp at h

/-- The result of pulling once on the stream (`try_poll_next`). -/
inductive PollNext where
  | pending
  | ended
  | item (d : List Nat) (m : Metadata)
  | err (e : ErrKind)
deriving DecidableEq, Repr

/-- A finished pull on the stream: its result, the machine afterwards, the
number of reader-schedule entries consumed, and whether some `poll_read`
call returned 0 bytes while a field or the body was incomplete. -/
structure PollRes where
  res : PollNext
  strm : CodecStream
  used : Nat
  zeroRead : Bool
deriving DecidableEq, Repr

/-- `CodecStream::try_poll_next`: iterate `streamStep` until the step
returns a result. -/
def tryPollNext (s : CodecStream) (sched : List ReadStep) : PollRes :=
  match h : streamStep s sched with
  | .cont s' u =>
    let r := tryPollNext s' (sched.drop u)
    ⟨r.res, r.strm, u + r.used, r.zeroRead⟩
  | .pend s' u => ⟨.pending, s', u, false⟩
  | .fail e s' u z => ⟨.err e, s', u, z⟩
  | .ended s' u => ⟨.ended, s', u, false⟩
  | .item d m s' u => ⟨.item d m, s', u, false⟩
termination_by 10 * (sched.length + s.input.length) + streamRank s.data s.state
decreasing_by exact streamStep_cont_decreases h

/-- Terminal result of repeatedly pulling on the stream. -/
inductive StreamOutcome where
  | ended
  | fail (e : ErrKind)
deriving DecidableEq, Repr

/-- Pull repeatedly on the stream (as a consumer collecting the whole
sequence would), retrying across suspensions, until the sequence ends or an
error occurs: collects the yielded elements in order.  `fuel` bounds the
number of pulls; `none` as outcome means fuel ran out first. -/
def runStream (s : CodecStream) (sched : List ReadStep) :
    Nat → List (List Nat × Metadata) × Option StreamOutcome
  | 0 => ([], none)
  | fuel + 1 =>
    match tryPollNext s sched with
    | ⟨.pending, s', u, _⟩ => runStream s' (sched.drop u) fuel
    | ⟨.ended, _, _, _⟩ => ([], some .ended)
    | ⟨.err e, _, _, _⟩ => ([], some (.fail e))
    | ⟨.item d m, s', u, _⟩ =>
      let r := runStream s' (sched.drop u) fuel
      ((d, m) :: r.1, r.2)

/-- Pull once, retrying across suspensions until a non-pending result, as a
caller driving the machine would; `fuel` bounds the number of retries. -/
def pollUntilReady (s : CodecStream) (sched : List ReadStep) :
    Nat → PollRes
  | 0 => tryPollNext s sched
  | fuel + 1 =>
    match tryPollNext s sched with
    | ⟨.pending, s', u, _⟩ => pollUntilReady s' (sched.drop u) fuel
    | r => r

/-! ## Basic facts about the byte helpers -/

theorem u32ToBeBytes_length (n : Nat) : (u32ToBeBytes n).length = 4 := by
  simp [u32ToBeBytes]

theorem i32ToBeBytes_length (i : Int) : (i32ToBeBytes i).length = 4 := by
  simp [i32ToBeBytes, u32ToBeBytes]

theorem beU32_u32ToBeBytes (n : Nat) (h : n < 2 ^ 32) :
    beU32 (u32ToBeBytes n) = n := by
  simp [u32ToBeBytes, beU32]
  omega

theorem u32ToBeBytes_lt (n : Nat) : ∀ b ∈ u32ToBeBytes n, b < 256 := by
  simp [u32ToBeBytes]
  omega

theorem i32ToBeBytes_lt (i : Int) : ∀ b ∈ i32ToBeBytes i, b < 256 :=
  u32ToBeBytes_lt _

theorem beU32_lt (l : List Nat) (h : ∀ b ∈ l, b < 256) (hl : l.length = 4) :
    beU32 l < 2 ^ 32 := by
  match l, hl with
  | [a, b, c, d], _ =>
    have ha := h a (by simp)
    have hb := h b (by simp)
    have hc := h c (by simp)
    have hd := h d (by simp)
    simp [beU32]
    omega

theorem beI32_i32ToBeBytes (i : Int) (h1 : -2 ^ 31 ≤ i) (h2 : i < 2 ^ 31) :
    beI32 (i32ToBeBytes i) = i := by
  have hmod : (0 : Int) ≤ i % 2 ^ 32 := Int.emod_nonneg i (by norm_num)
  have hmod2 : i % 2 ^ 32 < 2 ^ 32 := Int.emod_lt_of_pos i (by norm_num)
  have hnat : ((i % 2 ^ 32).toNat : Int) = i % 2 ^ 32 := Int.toNat_of_nonneg hmod
  have hlt : (i % 2 ^ 32).toNat < 2 ^ 32 := by omega
  rw [beI32, i32ToBeBytes, beU32_u32ToBeBytes _ hlt]
  have : i % 2 ^ 32 = if 0 ≤ i then i else i + 2 ^ 32 := by
    split
    · rw [Int.emod_eq_of_lt (by assumption) (by omega)]
    · rw [← Int.add_mul_emod_self_left i (2 ^ 32) 1]
      rw [Int.emod_eq_of_lt (by omega) (by omega)]
      ring
  split <;> omega

theorem u32ToBeBytes_beU32 (a b c d : Nat) (ha : a < 256) (hb : b < 256)
    (hc : c < 256) (hd : d < 256) :
    u32ToBeBytes (beU32 [a, b, c, d]) = [a, b, c, d] := by
  simp [u32ToBeBytes, beU32]
  refine ⟨?_, ?_, ?_, ?_⟩ <;> omega

theorem beI32_range (l : List Nat) : -2 ^ 31 ≤ beI32 l ∧
    (beU32 l < 2 ^ 32 → beI32 l < 2 ^ 31) := by
  rw [beI32]
  split <;> constructor <;> omega

theorem i32ToBeBytes_beI32 (a b c d : Nat) (ha : a < 256) (hb : b < 256)
    (hc : c < 256) (hd : d < 256) :
    i32ToBeBytes (beI32 [a, b, c, d]) = [a, b, c, d] := by
  have hlt : beU32 [a, b, c, d] < 2 ^ 32 := beU32_lt _ (by simp; omega) (by simp)
  rw [beI32]
  split
  · rw [i32ToBeBytes]
    have h1 : ((beU32 [a, b, c, d] : Int)) % 2 ^ 32 = (beU32 [a, b, c, d] : Int) := by
      omega
    rw [h1]
    have h2 : ((beU32 [a, b, c, d] : Int)).toNat = beU32 [a, b, c, d] := by simp
    rw [h2]
    exact u32ToBeBytes_beU32 a b c d ha hb hc hd
  · rw [i32ToBeBytes]
    have h1 : ((beU32 [a, b, c, d] : Int) - 2 ^ 32) % 2 ^ 32 = (beU32 [a, b, c, d] : Int) := by
      omega
    rw [h1]
    have h2 : ((beU32 [a, b, c, d] : Int)).toNat = beU32 [a, b, c, d] := by simp
    rw [h2]
    exact u32ToBeBytes_beU32 a b c d ha hb hc hd

/-- `n &&& TYPE` is `n % 4`: the type accessors depend only on the low two
bits of the flags byte. -/
theorem land_type_eq_mod (n : Nat) : n &&& 3 = n % 4 := by
  simpa using Nat.and_pow_two_sub_one_eq_mod n 2

/-- C10: for every `Metadata` value, exactly one of the four type accessors
`is_buffer_packet`, `is_string_packet`, `is_json_packet`, `is_unused_packet`
returns `true`, and the accessors depend only on the low two bits of the
flags byte. -/
theorem c10_type_accessor_partition (m : Metadata) :
    ([m.is_buffer_packet, m.is_string_packet, m.is_json_packet,
        m.is_unused_packet].count true = 1) ∧
      ∀ m' : Metadata, m.flags % 4 = m'.flags % 4 →
        m.is_buffer_packet = m'.is_buffer_packet ∧
          m.is_string_packet = m'.is_string_packet ∧
          m.is_json_packet = m'.is_json_packet ∧
          m.is_unused_packet = m'.is_unused_packet := by
  constructor
  · simp only [Metadata.is_buffer_packet, Metadata.is_string_packet,
      Metadata.is_json_packet, Metadata.is_unused_packet, TYPE, TYPE_BINARY,
      TYPE_STRING, TYPE_JSON, TYPE_UNUSED, land_type_eq_mod]
    have h4 : m.flags % 4 < 4 := Nat.mod_lt _ (by norm_num)
    set r := m.flags % 4 with hr
    interval_cases r <;> simp
  · intro m' hmm
    simp only [Metadata.is_buffer_packet, Metadata.is_string_packet,
      Metadata.is_json_packet, Metadata.is_unused_packet, TYPE, TYPE_BINARY,
      TYPE_STRING, TYPE_JSON, TYPE_UNUSED, land_type_eq_mod, hmm]
    simp

/-- C10 witness: the theorem applied at concrete metadata, with the
hypothesis of the second part discharged at a concrete pair. -/
theorem c10_type_accessor_partition_witness :
    ([(Metadata.mk 5 0).is_buffer_packet, (Metadata.mk 5 0).is_string_packet,
        (Metadata.mk 5 0).is_json_packet, (Metadata.mk 5 0).is_unused_packet].count true = 1) ∧
      (Metadata.mk 5 0).flags % 4 = (Metadata.mk 9 7).flags % 4 ∧
      (Metadata.mk 5 0).is_string_packet = (Metadata.mk 9 7).is_string_packet :=
  ⟨(c10_type_accessor_partition ⟨5, 0⟩).1, by decide,
    (((c10_type_accessor_partition ⟨5, 0⟩).2 ⟨9, 7⟩ (by decide)).2).1⟩

/-- C2 (code bug): the oversized-payload check in `start_send` compares
`len as u32` against `u32::MAX`, which is never true because the cast
truncates; so `start_send` can never fail with `InvalidInput`, for any
payload whatsoever (in particular not for one of length `2 ^ 32`). -/
theorem c2_start_send_never_rejects (s : CodecSink) (payload : List Nat) (m : Metadata) :
    s.start_send payload m ≠ .fail .invalidInput := by
  rw [CodecSink.start_send]
  obtain ⟨w, b, st⟩ := s
  cases st <;> simp
  have : payload.length % 2 ^ 32 < 2 ^ 32 := Nat.mod_lt _ (by norm_num)
  omega

/-- C2 (code bug), behaviour at the failing input: a payload of length
`2 ^ 32` submitted to an idle encoder is accepted (the machine moves to
`Buffering` and will write a length field of `2 ^ 32 % 2 ^ 32 = 0`),
instead of failing with `InvalidInput` as specified. -/
theorem c2_start_send_accepts_oversized (payload : List Nat) (m : Metadata)
    (h : payload.length = 2 ^ 32) :
    CodecSink.new.start_send payload m =
      .ok ⟨[], some payload, .Buffering (.Flags m.to_be)⟩ := by
  rw [CodecSink.start_send]
  simp [CodecSink.new, h]

/-- C2 witness: the oversized acceptance at the concrete payload
`List.replicate (2 ^ 32) 0`. -/
theorem c2_start_send_accepts_oversized_witness :
    CodecSink.new.start_send (List.replicate (2 ^ 32) 0) ⟨0, 0⟩ =
      .ok ⟨[], some (List.replicate (2 ^ 32) 0), .Buffering (.Flags (Metadata.mk 0 0).to_be)⟩ :=
  c2_start_send_accepts_oversized _ _ (List.length_replicate _ _)

theorem drive_done {c : Bool} {s : CodecSink} {sched : List WriteStep}
    {out : FlushOutcome} {s' : CodecSink} {u : Nat} {zw : Bool}
    (h : sinkStep c s sched = .done out s' u zw) :
    drive c s sched = ⟨out, s', u, zw⟩ := by
  conv_lhs => unfold drive
  split
  · rename_i out2 s2 u2 zw2 heq
    rw [h] at heq
    injection heq with e1 e2 e3 e4
    subst e1 e2 e3 e4
    rfl
  · rename_i c2 s2 u2 heq
    rw [h] at heq
    cases heq

theorem drive_cont {c : Bool} {s : CodecSink} {sched : List WriteStep}
    {c' : Bool} {s' : CodecSink} {u : Nat}
    (h : sinkStep c s sched = .cont c' s' u) :
    drive c s sched =
      ⟨(drive c' s' (sched.drop u)).out, (drive c' s' (sched.drop u)).sink,
        u + (drive c' s' (sched.drop u)).used,
        (drive c' s' (sched.drop u)).zeroWrite⟩ := by
  conv_lhs => unfold drive
  split
  · rename_i out2 s2 u2 zw2 heq
    rw [h] at heq
    cases heq
  · rename_i c2 s2 u2 heq
    rw [h] at heq
    injection heq with e1 e2 e3
    subst e1 e2 e3
    rfl

theorem drive_cont_greedy {c : Bool} {s : CodecSink}
    {c' : Bool} {s' : CodecSink}
    (h : sinkStep c s [] = .cont c' s' 0) :
    drive c s [] = drive c' s' [] := by
  rw [drive_cont h]
  simp

/-- The wire bytes of one packet as the encoder emits them: the flags byte,
the 4 big-endian bytes of the payload length truncated to 32 bits, the 4
big-endian bytes of the id, then the payload. -/
def encodedPacket (p : List Nat) (m : Metadata) : List Nat :=
  m.flags :: (u32ToBeBytes (p.length % 2 ^ 32) ++ i32ToBeBytes m.id ++ p)

/-- Wire bytes of a list of packets, in order. -/
def encodedList : List (List Nat × Metadata) → List Nat
  | [] => []
  | (p, m) :: rest => encodedPacket p m ++ encodedList rest

/-- Driving `do_poll_flush` greedily from the `Flags` state writes exactly
the encoded packet and returns the machine to `Idle`. -/
theorem drive_flush_packet (w : List Nat) (p : List Nat) (m : Metadata) :
    drive false ⟨w, some p, .Buffering (.Flags m)⟩ [] =
      ⟨.ready, ⟨w ++ encodedPacket p m, some p, .Idle⟩, 0, false⟩ := by
  have h1 : sinkStep false ⟨w, some p, .Buffering (.Flags m)⟩ [] =
      .cont false ⟨w ++ [m.flags], some p, .Buffering (.Length m.id 0)⟩ 0 := by
    simp [sinkStep, pollWrite]
  rw [drive_cont_greedy h1]
  have h2 : sinkStep false ⟨w ++ [m.flags], some p, .Buffering (.Length m.id 0)⟩ [] =
      .cont false ⟨w ++ [m.flags] ++ u32ToBeBytes (p.length % 2 ^ 32), some p,
        .Buffering (.Length m.id 4)⟩ 0 := by
    simp [sinkStep, pollWrite, u32ToBeBytes]
  rw [drive_cont_greedy h2]
  have h3 : sinkStep false ⟨w ++ [m.flags] ++ u32ToBeBytes (p.length % 2 ^ 32), some p,
      .Buffering (.Length m.id 4)⟩ [] =
      .cont false ⟨w ++ [m.flags] ++ u32ToBeBytes (p.length % 2 ^ 32), some p,
        .Buffering (.Id m.id 0)⟩ 0 := by
    simp [sinkStep]
  rw [drive_cont_greedy h3]
  have h4 : sinkStep false ⟨w ++ [m.flags] ++ u32ToBeBytes (p.length % 2 ^ 32), some p,
      .Buffering (.Id m.id 0)⟩ [] =
      .cont false ⟨w ++ [m.flags] ++ u32ToBeBytes (p.length % 2 ^ 32) ++ i32ToBeBytes m.id,
        some p, .Buffering (.Id m.id 4)⟩ 0 := by
    simp [sinkStep, pollWrite, i32ToBeBytes, u32ToBeBytes]
  rw [drive_cont_greedy h4]
  have h5 : sinkStep false ⟨w ++ [m.flags] ++ u32ToBeBytes (p.length % 2 ^ 32) ++
      i32ToBeBytes m.id, some p, .Buffering (.Id m.id 4)⟩ [] =
      .cont false ⟨w ++ [m.flags] ++ u32ToBeBytes (p.length % 2 ^ 32) ++ i32ToBeBytes m.id,
        some p, .Buffering (.Data 0)⟩ 0 := by
    simp [sinkStep]
  rw [drive_cont_greedy h5]
  match p with
  | [] =>
    have h6 : sinkStep false ⟨w ++ [m.flags] ++ u32ToBeBytes (([] : List Nat).length % 2 ^ 32) ++
        i32ToBeBytes m.id, some [], .Buffering (.Data 0)⟩ [] =
        .cont false ⟨w ++ [m.flags] ++ u32ToBeBytes (([] : List Nat).length % 2 ^ 32) ++
          i32ToBeBytes m.id, some [], .Idle⟩ 0 := by
      simp [sinkStep]
    rw [drive_cont_greedy h6]
    have h7 : sinkStep false ⟨w ++ [m.flags] ++ u32ToBeBytes (([] : List Nat).length % 2 ^ 32) ++
        i32ToBeBytes m.id, some [], .Idle⟩ [] =
        .done .ready ⟨w ++ [m.flags] ++ u32ToBeBytes (([] : List Nat).length % 2 ^ 32) ++
          i32ToBeBytes m.id, some [], .Idle⟩ 0 false := by
      simp [sinkStep]
    rw [drive_done h7]
    simp [encodedPacket]
  | q :: qs =>
    have h6 : sinkStep false ⟨w ++ [m.flags] ++ u32ToBeBytes ((q :: qs).length % 2 ^ 32) ++
        i32ToBeBytes m.id, some (q :: qs), .Buffering (.Data 0)⟩ [] =
        .cont false ⟨w ++ [m.flags] ++ u32ToBeBytes ((q :: qs).length % 2 ^ 32) ++
          i32ToBeBytes m.id ++ (q :: qs), some (q :: qs),
          .Buffering (.Data (qs.length + 1))⟩ 0 := by
      simp [sinkStep, pollWrite]
    rw [drive_cont_greedy h6]
    have h7 : sinkStep false ⟨w ++ [m.flags] ++ u32ToBeBytes ((q :: qs).length % 2 ^ 32) ++
        i32ToBeBytes m.id ++ (q :: qs), some (q :: qs),
        .Buffering (.Data (qs.length + 1))⟩ [] =
        .cont false ⟨w ++ [m.flags] ++ u32ToBeBytes ((q :: qs).length % 2 ^ 32) ++
          i32ToBeBytes m.id ++ (q :: qs), some (q :: qs), .Idle⟩ 0 := by
      simp [sinkStep]
    rw [drive_cont_greedy h7]
    have h8 : sinkStep false ⟨w ++ [m.flags] ++ u32ToBeBytes ((q :: qs).length % 2 ^ 32) ++
        i32ToBeBytes m.id ++ (q :: qs), some (q :: qs), .Idle⟩ [] =
        .done .ready ⟨w ++ [m.flags] ++ u32ToBeBytes ((q :: qs).length % 2 ^ 32) ++
          i32ToBeBytes m.id ++ (q :: qs), some (q :: qs), .Idle⟩ 0 false := by
      simp [sinkStep]
    rw [drive_done h8]
    simp [encodedPacket]

/-- Driving `do_poll_close` greedily from `Idle` writes the 9-byte
end-of-stream marker and shuts down. -/
theorem drive_close_idle (w : List Nat) (b : Option (List Nat)) :
    drive true ⟨w, b, .Idle⟩ [] =
      ⟨.ready, ⟨w ++ ZEROS, b, .Shutdown⟩, 0, false⟩ := by
  have h1 : sinkStep true ⟨w, b, .Idle⟩ [] =
      .cont true ⟨w, b, .EndOfStream 0⟩ 0 := by
    simp [sinkStep]
  rw [drive_cont_greedy h1]
  have h2 : sinkStep true ⟨w, b, .EndOfStream 0⟩ [] =
      .cont true ⟨w ++ ZEROS, b, .EndOfStream 9⟩ 0 := by
    simp [sinkStep, pollWrite, ZEROS]
  rw [drive_cont_greedy h2]
  have h3 : sinkStep true ⟨w ++ ZEROS, b, .EndOfStream 9⟩ [] =
      .cont true ⟨w ++ ZEROS, b, .Shutdown⟩ 0 := by
    simp [sinkStep]
  rw [drive_cont_greedy h3]
  have h4 : sinkStep true ⟨w ++ ZEROS, b, .Shutdown⟩ [] =
      .done .ready ⟨w ++ ZEROS, b, .Shutdown⟩ 0 false := by
    simp [sinkStep]
  rw [drive_done h4]

/-- Submit each item in turn (`poll_ready`/`start_send`) and drive the
flush greedily after each, as `SinkExt::send_all` does; `none` if a
submission fails or a flush does not complete. -/
def sendAll : CodecSink → List (List Nat × Metadata) → Option CodecSink
  | s, [] => some s
  | s, (p, m) :: rest =>
    match s.start_send p m with
    | .ok s' =>
      match drive false s' [] with
      | ⟨.ready, s'', _, _⟩ => sendAll s'' rest
      | _ => none
    | _ => none

/-- All bytes the encoder puts on the wire for a list of items followed by
a close: submit and flush each item in order, then drive `poll_close`. -/
def encodeBytes (items : List (List Nat × Metadata)) : List Nat :=
  match sendAll CodecSink.new items with
  | some s => (drive true s []).sink.written
  | none => []

/-- `Metadata::to_be` carries the same abstract values (see its doc). -/
theorem Metadata.to_be_eq (m : Metadata) : m.to_be = m := rfl

/-- `sendAll` from an idle machine succeeds and writes exactly the encoded
packets in order, ending idle. -/
theorem sendAll_idle (items : List (List Nat × Metadata)) :
    ∀ (w : List Nat) (b : Option (List Nat)), ∃ b',
      sendAll ⟨w, b, .Idle⟩ items = some ⟨w ++ encodedList items, b', .Idle⟩ := by
  induction items with
  | nil =>
    intro w b
    exact ⟨b, by simp [sendAll, encodedList]⟩
  | cons x rest ih =>
    intro w b
    obtain ⟨p, m⟩ := x
    have hsend : CodecSink.start_send ⟨w, b, .Idle⟩ p m =
        .ok ⟨w, some p, .Buffering (.Flags m.to_be)⟩ := by
      rw [CodecSink.start_send]
      have : p.length % 2 ^ 32 < 2 ^ 32 := Nat.mod_lt _ (by norm_num)
      simp
      omega
    have hflush := drive_flush_packet w p m.to_be
    rw [Metadata.to_be_eq] at hsend hflush
    obtain ⟨b', hb'⟩ := ih (w ++ encodedPacket p m) (some p)
    refine ⟨b', ?_⟩
    rw [sendAll, hsend]
    simp only [hflush]
    rw [hb']
    simp [encodedList, encodedPacket]

/-- `encodeBytes` is the encoded packets followed by the 9-byte
end-of-stream marker. -/
theorem encodeBytes_eq (items : List (List Nat × Metadata)) :
    encodeBytes items = encodedList items ++ ZEROS := by
  obtain ⟨b', hb'⟩ := sendAll_idle items [] none
  rw [encodeBytes, CodecSink.new, hb']
  simp [drive_close_idle]

/-- A `done` result of the sink machine with the zero-write flag set is a
`WriteZero` failure. -/
theorem sinkStep_zeroWrite {c : Bool} {s : CodecSink} {sched : List WriteStep}
    {out : FlushOutcome} {s' : CodecSink} {u : Nat}
    (h : sinkStep c s sched = .done out s' u true) :
    out = .fail .writeZero := by
  obtain ⟨w, b, st⟩ := s
  match c, st with
  | false, .Idle => simp [sinkStep] at h
  | true, .Idle => simp [sinkStep] at h
  | c, .Buffering (.Flags m) =>
    simp only [sinkStep] at h
    split at h <;> simp_all
  | c, .Buffering (.Length id offset) =>
    simp only [sinkStep] at h
    split at h
    · split at h <;> simp_all
    · simp at h
  | c, .Buffering (.Id id offset) =>
    simp only [sinkStep] at h
    split at h
    · split at h <;> simp_all
    · simp at h
  | c, .Buffering (.Data offset) =>
    simp only [sinkStep] at h
    split at h
    · split at h <;> simp_all
    · simp at h
  | false, .EndOfStream o => simp [sinkStep] at h
  | true, .EndOfStream offset =>
    simp only [sinkStep] at h
    split at h
    · split at h <;> simp_all
    · simp at h
  | false, .Shutdown => simp [sinkStep] at h
  | true, .Shutdown => simp [sinkStep] at h

/-- C7: whenever an underlying write call returns 0 bytes while bytes
remain to be written, the drive fails with `WriteZero`. -/
theorem c7_zero_write (c : Bool) (s : CodecSink) (sched : List WriteStep)
    (h : (drive c s sched).zeroWrite = true) :
    (drive c s sched).out = .fail .writeZero := by
  induction c, s, sched using drive.induct with
  | case1 c s sched out s' u zw hstep =>
    rw [drive_done hstep] at h ⊢
    simp at h
    subst h
    exact sinkStep_zeroWrite hstep
  | case2 c s sched c' s' u hstep ih =>
    rw [drive_cont hstep] at h ⊢
    simp at h ⊢
    exact ih h

/-- C7 witness: a writer that accepts 0 bytes on the first write makes the
flush of a one-byte packet fail with `WriteZero`. -/
theorem c7_zero_write_witness :
    (drive false ⟨[], some [65], .Buffering (.Flags ⟨0, 7⟩)⟩ [.accept 0]).zeroWrite = true ∧
      (drive false ⟨[], some [65], .Buffering (.Flags ⟨0, 7⟩)⟩ [.accept 0]).out =
        .fail .writeZero :=
  ⟨by simp [drive, sinkStep, pollWrite, Nat.min_def],
    c7_zero_write _ _ _ (by simp [drive, sinkStep, pollWrite, Nat.min_def])⟩

/-- The bytes written when one item is submitted to a fresh encoder and the
flush is driven greedily to completion (no close -- just this packet). -/
def encodeOne (p : List Nat) (m : Metadata) : List Nat :=
  match CodecSink.new.start_send p m with
  | .ok s => (drive false s []).sink.written
  | _ => []

/-- C4: encoding payload `[0x41]` with metadata `{flags: 0, id: 7}`
produces exactly `00 00 00 00 01 00 00 00 07 41`, and decoding those 10
bytes yields exactly `([0x41], {flags: 0, id: 7})`. -/
theorem c4_concrete_example :
    encodeOne [65] ⟨0, 7⟩ = [0, 0, 0, 0, 1, 0, 0, 0, 7, 65] ∧
      (tryPollNext (CodecStream.new [0, 0, 0, 0, 1, 0, 0, 0, 7, 65]) []).res =
        .item [65] ⟨0, 7⟩ := by
  constructor
  · rw [encodeOne]
    have hsend : CodecSink.new.start_send [65] ⟨0, 7⟩ =
        .ok ⟨[], some [65], .Buffering (.Flags (Metadata.mk 0 7).to_be)⟩ := by
      rw [CodecSink.start_send]
      simp [CodecSink.new]
    rw [hsend, Metadata.to_be_eq]
    simp only [drive_flush_packet]
    simp [encodedPacket, u32ToBeBytes, i32ToBeBytes]
  · simp [tryPollNext, streamStep, pollRead, CodecStream.new, Metadata.is_unused_packet,
      TYPE, TYPE_UNUSED, beU32, beI32, setSlice, Nat.min_def]

/-! ## Step lemmas for `tryPollNext` -/

theorem tryPollNext_cont {s : CodecStream} {sched : List ReadStep}
    {s' : CodecStream} {u : Nat} (h : streamStep s sched = .cont s' u) :
    tryPollNext s sched =
      ⟨(tryPollNext s' (sched.drop u)).res, (tryPollNext s' (sched.drop u)).strm,
        u + (tryPollNext s' (sched.drop u)).used,
        (tryPollNext s' (sched.drop u)).zeroRead⟩ := by
  conv_lhs => unfold tryPollNext
  split
  · rename_i s2 u2 heq
    rw [h] at heq
    injection heq with e1 e2
    subst e1 e2
    rfl
  · rename_i s2 u2 heq
    rw [h] at heq
    cases heq
  · rename_i e2 s2 u2 z2 heq
    rw [h] at heq
    cases heq
  · rename_i s2 u2 heq
    rw [h] at heq
    cases heq
  · rename_i d2 m2 s2 u2 heq
    rw [h] at heq
    cases heq

theorem tryPollNext_cont_greedy {s : CodecStream} {s' : CodecStream}
    (h : streamStep s [] = .cont s' 0) :
    tryPollNext s [] = tryPollNext s' [] := by
  rw [tryPollNext_cont h]
  simp

theorem tryPollNext_pend {s : CodecStream} {sched : List ReadStep}
    {s' : CodecStream} {u : Nat} (h : streamStep s sched = .pend s' u) :
    tryPollNext s sched = ⟨.pending, s', u, false⟩ := by
  conv_lhs => unfold tryPollNext
  split <;> rename_i heq <;> rw [h] at heq <;> try cases heq
  case _ => rfl

theorem tryPollNext_fail {s : CodecStream} {sched : List ReadStep}
    {e : ErrKind} {s' : CodecStream} {u : Nat} {z : Bool}
    (h : streamStep s sched = .fail e s' u z) :
    tryPollNext s sched = ⟨.err e, s', u, z⟩ := by
  conv_lhs => unfold tryPollNext
  split <;> rename_i heq <;> rw [h] at heq <;> try cases heq
  case _ => rfl

theorem tryPollNext_ended {s : CodecStream} {sched : List ReadStep}
    {s' : CodecStream} {u : Nat} (h : streamStep s sched = .ended s' u) :
    tryPollNext s sched = ⟨.ended, s', u, false⟩ := by
  conv_lhs => unfold tryPollNext
  split <;> rename_i heq <;> rw [h] at heq <;> try cases heq
  case _ => rfl

theorem tryPollNext_item {s : CodecStream} {sched : List ReadStep}
    {d : List Nat} {m : Metadata} {s' : CodecStream} {u : Nat}
    (h : streamStep s sched = .item d m s' u) :
    tryPollNext s sched = ⟨.item d m, s', u, false⟩ := by
  conv_lhs => unfold tryPollNext
  split <;> rename_i heq <;> rw [h] at heq <;> try cases heq
  case _ => rfl

/-- A `fail` result of the stream machine with the zero-read flag set is an
`UnexpectedEof` failure. -/
theorem streamStep_zeroRead {s : CodecStream} {sched : List ReadStep}
    {e : ErrKind} {s' : CodecStream} {u : Nat}
    (h : streamStep s sched = .fail e s' u true) :
    e = .unexpectedEof := by
  obtain ⟨input, st, meta, dat⟩ := s
  match st with
  | .Flags =>
    simp only [streamStep] at h
    split at h
    · simp at h
    · simp_all
    · split at h <;> simp_all
  | .Length offset buf =>
    simp only [streamStep] at h
    split at h
    · split at h <;> simp_all
    · simp at h
  | .Id offset buf length =>
    simp only [streamStep] at h
    split at h
    · split at h <;> simp_all
    · split at h <;> simp_all
  | .Data length =>
    simp only [streamStep] at h
    split at h
    · split at h <;> simp_all
    · simp at h

/-- C6: whenever an underlying read call returns 0 bytes while the current
header field or the body is not yet complete, the pull fails with
`UnexpectedEof` (so no element is produced for the incomplete packet). -/
theorem c6_truncation_eof (s : CodecStream) (sched : List ReadStep)
    (h : (tryPollNext s sched).zeroRead = true) :
    (tryPollNext s sched).res = .err .unexpectedEof := by
  induction s, sched using tryPollNext.induct with
  | case1 s sched s' u hstep ih =>
    rw [tryPollNext_cont hstep] at h ⊢
    simp at h ⊢
    exact ih h
  | case2 s sched s' u hstep =>
    rw [tryPollNext_pend hstep] at h ⊢
    simp at h
  | case3 s sched e s' u z hstep =>
    rw [tryPollNext_fail hstep] at h ⊢
    simp at h ⊢
    subst h
    exact streamStep_zeroRead hstep
  | case4 s sched s' u hstep =>
    rw [tryPollNext_ended hstep] at h ⊢
    simp at h
  | case5 s sched d m s' u hstep =>
    rw [tryPollNext_item hstep] at h ⊢
    simp at h

/-- C6 witness: a source truncated after the flags byte (one byte then end
of input) makes the pull fail with `UnexpectedEof`. -/
theorem c6_truncation_eof_witness :
    (tryPollNext (CodecStream.new [0]) []).zeroRead = true ∧
      (tryPollNext (CodecStream.new [0]) []).res = .err .unexpectedEof :=
  ⟨by simp [tryPollNext, streamStep, pollRead, CodecStream.new, Metadata.is_unused_packet,
      TYPE, TYPE_UNUSED, Nat.min_def, setSlice],
    c6_truncation_eof _ _ (by simp [tryPollNext, streamStep, pollRead, CodecStream.new,
      Metadata.is_unused_packet, TYPE, TYPE_UNUSED, Nat.min_def, setSlice])⟩

/-- A reader schedule that never delivers a spurious 0-byte chunk: every
scheduled chunk transfers at least one byte (the underlying source signals
end-of-input only when it is actually exhausted). -/
def posSched (sched : List ReadStep) : Prop :=
  ∀ n, ReadStep.chunk n ∈ sched → 0 < n

/-- Pulling from a fresh decoder on a source whose first byte has the
reserved type bits fails one step after reading that byte. -/
theorem streamStep_reserved (b : Nat) (rest : List Nat) (meta : Metadata)
    (sched : List ReadStep) (hb : b &&& 3 = 3) (hk : pollRead (b :: rest) 1 sched = (some 1, if sched = [] then 0 else 1)) :
    streamStep ⟨b :: rest, .Flags, meta, none⟩ sched =
      .fail .invalidData ⟨rest, .Flags, ⟨b, meta.id⟩, none⟩ (if sched = [] then 0 else 1) false := by
  simp only [streamStep]
  rw [hk]
  simp [Metadata.is_unused_packet, TYPE, TYPE_UNUSED, hb]

/-- C3: for every source whose first byte has the reserved type value in
its low two bits, pulling from the decoder (retrying across suspensions)
fails with `InvalidData`, and at the failure point only that single flags
byte has been consumed: the machine still holds all remaining bytes, is in
the `Flags` state, and has read no length or id bytes. -/
theorem c3_reserved_type_rejection (b : Nat) (rest : List Nat)
    (sched : List ReadStep) (hpos : posSched sched) (hb : b &&& TYPE = TYPE_UNUSED) :
    (pollUntilReady (CodecStream.new (b :: rest)) sched (sched.length + 1)).res =
        .err .invalidData ∧
      (pollUntilReady (CodecStream.new (b :: rest)) sched (sched.length + 1)).strm =
        ⟨rest, .Flags, ⟨b, 0⟩, none⟩ := by
  rw [TYPE, TYPE_UNUSED] at hb
  induction sched with
  | nil =>
    have hk : pollRead (b :: rest) 1 [] = (some 1, if ([] : List ReadStep) = [] then 0 else 1) := by
      simp [pollRead]
    have hstep := streamStep_reserved b rest ⟨0, 0⟩ [] hb hk
    simp only [if_pos rfl] at hstep
    rw [pollUntilReady]
    rw [CodecStream.new, tryPollNext_fail hstep]
    simp
  | cons head tail ih =>
    match head with
    | .pending =>
      have hstep : streamStep (CodecStream.new (b :: rest)) (.pending :: tail) =
          .pend (CodecStream.new (b :: rest)) 1 := by
        simp [streamStep, pollRead, CodecStream.new]
      have : (ReadStep.pending :: tail).length + 1 = (tail.length + 1) + 1 := by simp
      rw [this, pollUntilReady, tryPollNext_pend hstep]
      simp only [List.drop_succ_cons, List.drop_zero]
      exact ih (fun n hn => hpos n (by simp [hn]))
    | .chunk n =>
      have hn : 0 < n := hpos n (by simp)
      have hk : pollRead (b :: rest) 1 (.chunk n :: tail) =
          (some 1, if (ReadStep.chunk n :: tail) = [] then 0 else 1) := by
        simp [pollRead, Nat.min_def]
        omega
      have hstep := streamStep_reserved b rest ⟨0, 0⟩ (.chunk n :: tail) hb hk
      simp only [reduceCtorEq, if_false] at hstep
      have : (ReadStep.chunk n :: tail).length + 1 = (tail.length + 1) + 1 := by simp
      rw [this, pollUntilReady]
      rw [CodecStream.new, tryPollNext_fail hstep]
      simp

/-- C3 witness: the reserved flags byte 0x03 followed by two more bytes is
rejected with `InvalidData`, leaving those two bytes unconsumed. -/
theorem c3_reserved_type_rejection_witness :
    posSched [] ∧ (3 : Nat) &&& TYPE = TYPE_UNUSED ∧
      (pollUntilReady (CodecStream.new [3, 9, 9]) [] 1).res = .err .invalidData ∧
      (pollUntilReady (CodecStream.new [3, 9, 9]) [] 1).strm =
        ⟨[9, 9], .Flags, ⟨3, 0⟩, none⟩ := by
  refine ⟨by simp [posSched], by decide, ?_, ?_⟩
  · exact (c3_reserved_type_rejection 3 [9, 9] [] (by simp [posSched]) (by decide)).1
  · exact (c3_reserved_type_rejection 3 [9, 9] [] (by simp [posSched]) (by decide)).2

/-- The configuration the decoder is left in after recognizing the
end-of-stream marker: `Id` state with all four id bytes read, stored length
0, and all-zero metadata. -/
def EndedConfig (s : CodecStream) : Prop :=
  ∃ offset buf, s.state = .Id offset buf 0 ∧ ¬ offset < 4 ∧ beI32 buf = 0 ∧
    s.metadata = ⟨0, 0⟩

/-- Only the end-of-stream check produces `ended`, and it leaves the
machine in an `EndedConfig`. -/
theorem streamStep_ended_config {s : CodecStream} {sched : List ReadStep}
    {s' : CodecStream} {u : Nat} (h : streamStep s sched = .ended s' u) :
    EndedConfig s' := by
  obtain ⟨input, st, meta, dat⟩ := s
  match st with
  | .Flags =>
    simp only [streamStep] at h
    split at h
    · simp at h
    · simp at h
    · split at h <;> simp_all
  | .Length offset buf =>
    simp only [streamStep] at h
    split at h
    · split at h <;> simp_all
    · simp at h
  | .Id offset buf length =>
    simp only [streamStep] at h
    split at h
    · split at h <;> simp_all
    · rename_i h4
      split at h
      · rename_i hcond
        simp at h
        obtain ⟨h1, h2⟩ := h
        subst h1
        refine ⟨offset, buf, ?_, h4, hcond.2.2, ?_⟩
        · simp [hcond.1]
        · simp [hcond.2.1, hcond.2.2]
      · simp at h
  | .Data length =>
    simp only [streamStep] at h
    split at h
    · split at h <;> simp_all
    · simp at h

/-- From an `EndedConfig` the machine immediately reports `ended` again,
unchanged, without touching the source. -/
theorem endedConfig_step (s : CodecStream) (hE : EndedConfig s)
    (sched : List ReadStep) : streamStep s sched = .ended s 0 := by
  obtain ⟨offset, buf, hst, h4, hbe, hmeta⟩ := hE
  obtain ⟨input, st, meta, dat⟩ := s
  simp only at hst hmeta
  subst hst hmeta
  simp only [streamStep]
  rw [if_neg h4]
  simp [hbe]

/-- A pull that reports `ended` leaves the machine in an `EndedConfig`. -/
theorem tryPollNext_ended_config (s : CodecStream) (sched : List ReadStep)
    (h : (tryPollNext s sched).res = .ended) :
    EndedConfig (tryPollNext s sched).strm := by
  induction s, sched using tryPollNext.induct with
  | case1 s sched s' u hstep ih =>
    rw [tryPollNext_cont hstep] at h ⊢
    exact ih h
  | case2 s sched s' u hstep =>
    rw [tryPollNext_pend hstep] at h
    simp at h
  | case3 s sched e s' u z hstep =>
    rw [tryPollNext_fail hstep] at h
    simp at h
  | case4 s sched s' u hstep =>
    rw [tryPollNext_ended hstep]
    exact streamStep_ended_config hstep
  | case5 s sched d m s' u hstep =>
    rw [tryPollNext_item hstep] at h
    simp at h

/-- C9 (amended): once a pull has ended the sequence (the end-of-stream
marker was recognized), every subsequent pull on the same decoder, under
any reader schedule, reports `ended` again with the machine unchanged — so
no further element is ever produced after a normal end.  (After a fatal
error, by contrast, the machine is not latched; see the counterexample.) -/
theorem c9_ended_is_absorbing (s : CodecStream) (sched : List ReadStep)
    (h : (tryPollNext s sched).res = .ended) (sched2 : List ReadStep) :
    tryPollNext (tryPollNext s sched).strm sched2 =
      ⟨.ended, (tryPollNext s sched).strm, 0, false⟩ :=
  tryPollNext_ended (endedConfig_step _ (tryPollNext_ended_config s sched h) sched2)

/-- C9 witness: after decoding the 9-zero-byte marker, a further pull (with
a nonempty source schedule) still reports `ended` and changes nothing. -/
theorem c9_ended_is_absorbing_witness :
    (tryPollNext (CodecStream.new [0, 0, 0, 0, 0, 0, 0, 0, 0]) []).res = .ended ∧
      tryPollNext (tryPollNext (CodecStream.new [0, 0, 0, 0, 0, 0, 0, 0, 0]) []).strm [.chunk 5] =
        ⟨.ended, (tryPollNext (CodecStream.new [0, 0, 0, 0, 0, 0, 0, 0, 0]) []).strm, 0, false⟩ :=
  ⟨by simp [tryPollNext, streamStep, pollRead, CodecStream.new, Metadata.is_unused_packet,
      TYPE, TYPE_UNUSED, Nat.min_def, setSlice, beU32, beI32],
    c9_ended_is_absorbing _ _ (by simp [tryPollNext, streamStep, pollRead, CodecStream.new,
      Metadata.is_unused_packet, TYPE, TYPE_UNUSED, Nat.min_def, setSlice, beU32, beI32]) _⟩

/-- C9 (counterexample to the claim as stated): a fatal error does not
latch the decoder.  On the source `0x03` followed by a well-formed packet,
the first pull fails with `InvalidData`, yet the second pull decodes and
yields the packet `([0x41], {flags: 0, id: 7})`. -/
theorem c9_error_not_latched_counterexample :
    (tryPollNext (CodecStream.new [3, 0, 0, 0, 0, 1, 0, 0, 0, 7, 65]) []).res =
        .err .invalidData ∧
      (tryPollNext (tryPollNext (CodecStream.new [3, 0, 0, 0, 0, 1, 0, 0, 0, 7, 65]) []).strm []).res =
        .item [65] ⟨0, 7⟩ := by
  constructor
  · simp [tryPollNext, streamStep, pollRead, CodecStream.new, Metadata.is_unused_packet,
      TYPE, TYPE_UNUSED, Nat.min_def]
  · simp [tryPollNext, streamStep, pollRead, CodecStream.new, Metadata.is_unused_packet,
      TYPE, TYPE_UNUSED, Nat.min_def, setSlice, beU32, beI32]

/-- All entries of a byte list are bytes. -/
def wfBytes (l : List Nat) : Prop := ∀ b ∈ l, b < 256

instance (l : List Nat) : Decidable (wfBytes l) := by
  rw [wfBytes]
  infer_instance

/-- A well-formed (payload, metadata) item: the flags are one `u8` byte
with a non-reserved type, the id is in `i32` range, the payload consists of
bytes and its length fits in 32 bits, and the item is not the all-zero
empty packet (whose encoding is bit-identical to the end-of-stream
marker). -/
def IsWellFormedItem (p : List Nat) (m : Metadata) : Prop :=
  m.flags < 256 ∧ m.flags &&& TYPE ≠ TYPE_UNUSED ∧
    -2 ^ 31 ≤ m.id ∧ m.id < 2 ^ 31 ∧
    p.length < 2 ^ 32 ∧ wfBytes p ∧
    ¬(p = [] ∧ m.flags = 0 ∧ m.id = 0)

instance (p : List Nat) (m : Metadata) : Decidable (IsWellFormedItem p m) := by
  rw [IsWellFormedItem, wfBytes]
  infer_instance

/-- A greedy pull on a source starting with a well-formed encoded packet
yields exactly that packet and leaves the machine at `Flags` on the rest of
the source. -/
theorem tryPollNext_packet (p : List Nat) (m : Metadata) (rest : List Nat)
    (meta0 : Metadata) (hwf : IsWellFormedItem p m) :
    tryPollNext ⟨encodedPacket p m ++ rest, .Flags, meta0, none⟩ [] =
      ⟨.item p m, ⟨rest, .Flags, m, none⟩, 0, false⟩ := by
  obtain ⟨hf256, hft, hid1, hid2, hlen, hbytes, hnz⟩ := hwf
  rw [TYPE, TYPE_UNUSED] at hft
  have hmod : p.length % 2 ^ 32 = p.length := Nat.mod_eq_of_lt hlen
  rw [encodedPacket, hmod]
  -- step 1: read the flags byte
  have hs1 : streamStep ⟨m.flags :: (u32ToBeBytes p.length ++ i32ToBeBytes m.id ++ p) ++ rest,
      .Flags, meta0, none⟩ [] =
      .cont ⟨u32ToBeBytes p.length ++ (i32ToBeBytes m.id ++ (p ++ rest)),
        .Length 0 [0, 0, 0, 0], ⟨m.flags, meta0.id⟩, none⟩ 0 := by
    simp [streamStep, pollRead, Metadata.is_unused_packet, TYPE, TYPE_UNUSED, hft]
  rw [tryPollNext_cont_greedy hs1]
  -- step 2: read the 4 length bytes at once
  have hk2 : pollRead (u32ToBeBytes p.length ++ (i32ToBeBytes m.id ++ (p ++ rest))) 4 [] =
      (some 4, 0) := by
    simp [pollRead, u32ToBeBytes, i32ToBeBytes]
  have hs2 : streamStep ⟨u32ToBeBytes p.length ++ (i32ToBeBytes m.id ++ (p ++ rest)),
      .Length 0 [0, 0, 0, 0], ⟨m.flags, meta0.id⟩, none⟩ [] =
      .cont ⟨i32ToBeBytes m.id ++ (p ++ rest),
        .Length 4 (u32ToBeBytes p.length), ⟨m.flags, meta0.id⟩, none⟩ 0 := by
    simp only [streamStep]
    norm_num
    rw [hk2]
    simp [setSlice, u32ToBeBytes]
  rw [tryPollNext_cont_greedy hs2]
  -- step 3: length field complete
  have hbeL : beU32 (u32ToBeBytes p.length) = p.length := beU32_u32ToBeBytes _ hlen
  have hs3 : streamStep ⟨i32ToBeBytes m.id ++ (p ++ rest),
      .Length 4 (u32ToBeBytes p.length), ⟨m.flags, meta0.id⟩, none⟩ [] =
      .cont ⟨i32ToBeBytes m.id ++ (p ++ rest),
        .Id 0 [0, 0, 0, 0] p.length, ⟨m.flags, meta0.id⟩, none⟩ 0 := by
    simp [streamStep, hbeL]
  rw [tryPollNext_cont_greedy hs3]
  -- step 4: read the 4 id bytes at once
  have hk4 : pollRead (i32ToBeBytes m.id ++ (p ++ rest)) 4 [] = (some 4, 0) := by
    simp [pollRead, i32ToBeBytes, u32ToBeBytes]
  have hs4 : streamStep ⟨i32ToBeBytes m.id ++ (p ++ rest),
      .Id 0 [0, 0, 0, 0] p.length, ⟨m.flags, meta0.id⟩, none⟩ [] =
      .cont ⟨p ++ rest, .Id 4 (i32ToBeBytes m.id) p.length, ⟨m.flags, meta0.id⟩, none⟩ 0 := by
    simp only [streamStep]
    norm_num
    rw [hk4]
    simp [setSlice, i32ToBeBytes, u32ToBeBytes]
  rw [tryPollNext_cont_greedy hs4]
  -- step 5: id field complete; the end-of-stream check fails
  have hbeI : beI32 (i32ToBeBytes m.id) = m.id := beI32_i32ToBeBytes _ hid1 hid2
  have hnz' : ¬(p.length = 0 ∧ m.flags = 0 ∧ m.id = 0) := by
    intro hc
    exact hnz ⟨List.length_eq_zero.mp hc.1, hc.2.1, hc.2.2⟩
  have hs5 : streamStep ⟨p ++ rest, .Id 4 (i32ToBeBytes m.id) p.length,
      ⟨m.flags, meta0.id⟩, none⟩ [] =
      .cont ⟨p ++ rest, .Data p.length, ⟨m.flags, m.id⟩, some []⟩ 0 := by
    simp only [streamStep]
    norm_num
    rw [hbeI, if_neg hnz]
  rw [tryPollNext_cont_greedy hs5]
  have hmeta : (⟨m.flags, m.id⟩ : Metadata) = m := rfl
  rw [hmeta]
  -- step 6: read the body
  match p, hnz' with
  | [], hnz' =>
    have hs6 : streamStep ⟨[] ++ rest, .Data (([] : List Nat).length), m, some []⟩ [] =
        .item [] m ⟨[] ++ rest, .Flags, m, none⟩ 0 := by
      simp [streamStep]
    rw [tryPollNext_item hs6]
    simp
  | q :: qs, hnz' =>
    have hk6 : pollRead (q :: (qs ++ rest)) (qs.length + 1) [] =
        (some (qs.length + 1), 0) := by
      simp [pollRead, Nat.min_def]
    have hs6 : streamStep ⟨(q :: qs) ++ rest, .Data (q :: qs).length, m, some []⟩ [] =
        .cont ⟨rest, .Data (q :: qs).length, m, some (q :: qs)⟩ 0 := by
      simp only [streamStep]
      norm_num
      rw [hk6]
      simp [List.take_left, List.drop_left]
    rw [tryPollNext_cont_greedy hs6]
    have hs7 : streamStep ⟨rest, .Data (q :: qs).length, m, some (q :: qs)⟩ [] =
        .item (q :: qs) m ⟨rest, .Flags, m, none⟩ 0 := by
      simp [streamStep]
    rw [tryPollNext_item hs7]

/-- Greedily decoding a source made of well-formed encoded packets followed
by anything yields those packets in order and then continues on the rest
(with the metadata register holding some leftover value). -/
theorem runStream_packets (items : List (List Nat × Metadata))
    (hwf : ∀ x ∈ items, IsWellFormedItem x.1 x.2) :
    ∀ (rest : List Nat) (meta0 : Metadata) (fuel : Nat), ∃ metaF,
      runStream ⟨encodedList items ++ rest, .Flags, meta0, none⟩ [] (items.length + fuel) =
        (items ++ (runStream ⟨rest, .Flags, metaF, none⟩ [] fuel).1,
          (runStream ⟨rest, .Flags, metaF, none⟩ [] fuel).2) := by
  induction items with
  | nil =>
    intro rest meta0 fuel
    exact ⟨meta0, by simp [encodedList]⟩
  | cons x t ih =>
    intro rest meta0 fuel
    obtain ⟨p, m⟩ := x
    have hx : IsWellFormedItem p m := hwf (p, m) (by simp)
    have hpull := tryPollNext_packet p m (encodedList t ++ rest) meta0 hx
    rw [show encodedPacket p m ++ (encodedList t ++ rest) =
      (encodedPacket p m ++ encodedList t) ++ rest from by simp] at hpull
    obtain ⟨metaF, hF⟩ := ih (fun y hy => hwf y (by simp [hy])) rest m fuel
    refine ⟨metaF, ?_⟩
    have hfuel : (((p, m) :: t).length + fuel) = (t.length + fuel) + 1 := by
      simp
      omega
    rw [hfuel, runStream]
    rw [show encodedList ((p, m) :: t) = encodedPacket p m ++ encodedList t from rfl]
    rw [hpull]
    simp only [List.drop_zero]
    rw [hF]
    simp

/-- Greedily decoding the 9-zero-byte end-of-stream marker ends the
sequence normally, for any metadata register contents. -/
theorem runStream_zeros (meta0 : Metadata) :
    runStream ⟨ZEROS, .Flags, meta0, none⟩ [] 1 = ([], some .ended) := by
  simp [runStream, tryPollNext, streamStep, pollRead, ZEROS, Metadata.is_unused_packet,
    TYPE, TYPE_UNUSED, Nat.min_def, setSlice, beU32, beI32]

/-- A source consisting of well-formed packets followed by the 9-zero-byte
end-of-stream marker decodes to exactly those packets in order, then ends
the sequence normally with no trailing error. -/
theorem decode_packets_then_marker (items : List (List Nat × Metadata))
    (hwf : ∀ x ∈ items, IsWellFormedItem x.1 x.2) :
    runStream (CodecStream.new (encodedList items ++ ZEROS)) [] (items.length + 1) =
      (items, some .ended) := by
  obtain ⟨metaF, hF⟩ := runStream_packets items hwf ZEROS ⟨0, 0⟩ 1
  rw [CodecStream.new, hF, runStream_zeros]
  simp

/-- C5: a source consisting of any number of well-formed packets followed
by the 9-zero-byte end-of-stream marker decodes to exactly those packets in
order, then ends the sequence normally with no trailing error. -/
theorem c5_clean_termination (items : List (List Nat × Metadata))
    (hwf : ∀ x ∈ items, IsWellFormedItem x.1 x.2) :
    runStream (CodecStream.new (encodedList items ++ ZEROS)) [] (items.length + 1) =
      (items, some .ended) :=
  decode_packets_then_marker items hwf

/-- C5 witness: one well-formed packet followed by the marker decodes to
exactly that packet and a normal end. -/
theorem c5_clean_termination_witness :
    (∀ x ∈ [([65], Metadata.mk 0 7)], IsWellFormedItem x.1 x.2) ∧
      runStream (CodecStream.new (encodedList [([65], Metadata.mk 0 7)] ++ ZEROS)) [] 2 =
        ([([65], Metadata.mk 0 7)], some .ended) :=
  ⟨by decide, c5_clean_termination [([65], Metadata.mk 0 7)] (by decide)⟩

/-- C1 (amended): submitting a sequence of well-formed items to the
encoder, closing it, and decoding the written bytes greedily yields exactly
the same items in order followed by normal termination.  (Well-formedness
excludes metadata with the reserved type bits -- whose packets the decoder
rejects -- and the all-zero empty item, whose encoding is the end-of-stream
marker itself; see the counterexample.) -/
theorem c1_roundtrip (items : List (List Nat × Metadata))
    (hwf : ∀ x ∈ items, IsWellFormedItem x.1 x.2) :
    runStream (CodecStream.new (encodeBytes items)) [] (items.length + 1) =
      (items, some .ended) := by
  rw [encodeBytes_eq]
  exact decode_packets_then_marker items hwf

/-- C1 witness: the round trip at a concrete two-item sequence. -/
theorem c1_roundtrip_witness :
    (∀ x ∈ [([65], Metadata.mk 0 7), ([1, 2, 3], Metadata.mk 13 (-2))],
        IsWellFormedItem x.1 x.2) ∧
      runStream (CodecStream.new
          (encodeBytes [([65], Metadata.mk 0 7), ([1, 2, 3], Metadata.mk 13 (-2))])) [] 3 =
        ([([65], Metadata.mk 0 7), ([1, 2, 3], Metadata.mk 13 (-2))], some .ended) :=
  ⟨by decide, c1_roundtrip [([65], Metadata.mk 0 7), ([1, 2, 3], Metadata.mk 13 (-2))]
    (by decide)⟩

/-- C1 (counterexample to the claim as stated): the empty payload with
all-zero metadata is within the 32-bit length bound, but encoding it and
closing writes 18 zero bytes, and decoding that stream terminates at once
with no elements: the single submitted pair is not yielded back. -/
theorem c1_roundtrip_counterexample :
    runStream (CodecStream.new (encodeBytes [([], Metadata.mk 0 0)])) [] 2 =
      ([], some .ended) ∧
      ([] : List (List Nat × Metadata)) ≠ [([], Metadata.mk 0 0)] := by
  constructor
  · have he : encodeBytes [([], Metadata.mk 0 0)] =
        [0, 0, 0, 0, 0, 0, 0, 0, 0, 0, 0, 0, 0, 0, 0, 0, 0, 0] := by
      rw [encodeBytes_eq]
      simp [encodedList, encodedPacket, u32ToBeBytes, i32ToBeBytes, ZEROS]
    rw [he, CodecStream.new]
    rw [show (2 : Nat) = 1 + 1 from rfl, runStream]
    have hsplit : ([0, 0, 0, 0, 0, 0, 0, 0, 0, 0, 0, 0, 0, 0, 0, 0, 0, 0] : List Nat) =
        ZEROS ++ ZEROS := by simp [ZEROS]
    simp [tryPollNext, streamStep, pollRead, Metadata.is_unused_packet,
      TYPE, TYPE_UNUSED, Nat.min_def, setSlice, beU32, beI32]
  · simp

/-! ## C8: chunking-independence of the decoder -/

/-- Modelled from the spec: decoding the whole byte stream delivered all at
once ("byte-for-byte identical result ... regardless of how the underlying
channel chunks reads").  This is the specification-side description of the
decoded result: split off one header, validate the type bits, check the
end-of-stream marker, take the body, and recurse. -/
def decodeAllAtOnce (input : List Nat) : List (List Nat × Metadata) × StreamOutcome :=
  match input with
  | [] => ([], .fail .unexpectedEof)
  | b :: rest =>
    if b &&& TYPE = TYPE_UNUSED then ([], .fail .invalidData)
    else if rest.length < 8 then ([], .fail .unexpectedEof)
    else
      let len := beU32 (rest.take 4)
      let id := beI32 ((rest.drop 4).take 4)
      if len = 0 ∧ b = 0 ∧ id = 0 then ([], .ended)
      else
        let body := rest.drop 8
        if body.length < len then ([], .fail .unexpectedEof)
        else
          let r := decodeAllAtOnce (body.drop len)
          ((body.take len, ⟨b, id⟩) :: r.1, r.2)
termination_by input.length
decreasing_by simp; omega

/-- The bytes of the packet currently being decoded that were already
consumed from the source, re-assembled in wire order in front of the bytes
the source still holds: a mid-packet machine state denotes the same stream
as this re-assembled input. -/
def pseudoInput (s : CodecStream) : List Nat :=
  match s.state with
  | .Flags => s.input
  | .Length o buf => s.metadata.flags :: (buf.take o ++ s.input)
  | .Id o buf len => s.metadata.flags :: (u32ToBeBytes len ++ (buf.take o ++ s.input))
  | .Data len => s.metadata.flags ::
      (u32ToBeBytes len ++ (i32ToBeBytes s.metadata.id ++ ((s.data.getD []) ++ s.input)))

/-- Invariant of decoder states reachable from a fresh machine on a byte
source: buffers have their wire sizes, all stored values are in range, the
flags already read have a valid type, and a `Data` state is not the
end-of-stream header. -/
def wfStream (s : CodecStream) : Prop :=
  wfBytes s.input ∧
  match s.state with
  | .Flags => True
  | .Length o buf => o ≤ 4 ∧ buf.length = 4 ∧ wfBytes buf ∧
      s.metadata.flags &&& 3 ≠ 3 ∧ s.metadata.flags < 256
  | .Id o buf len => o ≤ 4 ∧ buf.length = 4 ∧ wfBytes buf ∧
      s.metadata.flags &&& 3 ≠ 3 ∧ s.metadata.flags < 256 ∧ len < 2 ^ 32
  | .Data len => s.metadata.flags &&& 3 ≠ 3 ∧ s.metadata.flags < 256 ∧ len < 2 ^ 32 ∧
      -2 ^ 31 ≤ s.metadata.id ∧ s.metadata.id < 2 ^ 31 ∧
      (∃ d, s.data = some d ∧ d.length ≤ len ∧ wfBytes d) ∧
      ¬(len = 0 ∧ s.metadata.flags = 0 ∧ s.metadata.id = 0)

/-- States at which a pull can start: a field currently being read is
incomplete (pulls return before entering a complete-field state). -/
def entryState (s : CodecStream) : Prop :=
  match s.state with
  | .Flags => True
  | .Length o _ => o < 4
  | .Id o _ _ => o < 4
  | .Data len => (s.data.getD []).length < len

theorem setSlice_length (buf : List Nat) (o : Nat) (bs : List Nat)
    (h : o + bs.length ≤ buf.length) :
    (setSlice buf o bs).length = buf.length := by
  simp [setSlice]
  omega

theorem setSlice_take (buf : List Nat) (o : Nat) (bs : List Nat)
    (h : o + bs.length ≤ buf.length) (ho : o ≤ buf.length) :
    (setSlice buf o bs).take (o + bs.length) = buf.take o ++ bs := by
  rw [setSlice]
  exact List.take_left' (by simp; omega)

theorem setSlice_wf (buf : List Nat) (o : Nat) (bs : List Nat)
    (hbuf : wfBytes buf) (hbs : wfBytes bs) : wfBytes (setSlice buf o bs) := by
  intro x hx
  rw [setSlice] at hx
  simp at hx
  rcases hx with h | h | h
  · exact hbuf x (List.mem_of_mem_take h)
  · exact hbs x h
  · exact hbuf x (List.mem_of_mem_drop h)

theorem wfBytes_take (l : List Nat) (n : Nat) (h : wfBytes l) : wfBytes (l.take n) :=
  fun b hb => h b (List.mem_of_mem_take hb)

theorem wfBytes_drop (l : List Nat) (n : Nat) (h : wfBytes l) : wfBytes (l.drop n) :=
  fun b hb => h b (List.mem_of_mem_drop hb)

theorem wfBytes_append (l r : List Nat) (hl : wfBytes l) (hr : wfBytes r) :
    wfBytes (l ++ r) := by
  intro b hb
  rcases List.mem_append.mp hb with h | h
  · exact hl b h
  · exact hr b h

/-- Under a positive schedule, a read that returns 0 bytes means the source
is exhausted. -/
theorem pollRead_zero (input : List Nat) (requested : Nat) (sched : List ReadStep)
    (u : Nat) (hpos : posSched sched) (hreq : 1 ≤ requested)
    (h : pollRead input requested sched = (some 0, u)) : input = [] := by
  match sched with
  | [] =>
    simp [pollRead] at h
    obtain ⟨h1, _⟩ := h
    rcases h1 with h2 | h2
    · omega
    · exact h2
  | .pending :: rest => simp [pollRead] at h
  | .chunk n :: rest =>
    have hn : 0 < n := hpos n (by simp)
    simp [pollRead] at h
    obtain ⟨h1, _⟩ := h
    rcases h1 with h2 | h2 | h2
    · omega
    · omega
    · exact h2

theorem pollRead_none (input : List Nat) (requested : Nat) (sched : List ReadStep)
    (u : Nat) (h : pollRead input requested sched = (none, u)) :
    u = 1 ∧ 1 ≤ sched.length := by
  match sched with
  | [] => simp [pollRead] at h
  | .pending :: rest =>
    simp [pollRead] at h
    refine ⟨by omega, by simp⟩
  | .chunk n :: rest => simp [pollRead] at h

/-- A suspended step leaves the machine unchanged, consumes exactly one
schedule entry (the pending signal), and can only happen at an incomplete
field. -/
theorem streamStep_pend_sim {s : CodecStream} {sched : List ReadStep}
    {s' : CodecStream} {u : Nat} (h : streamStep s sched = .pend s' u) :
    s' = s ∧ u = 1 ∧ entryState s ∧ 1 ≤ sched.length := by
  obtain ⟨input, st, meta, dat⟩ := s
  match st with
  | .Flags =>
    simp only [streamStep] at h
    split at h
    · rename_i u0 heq
      simp at h
      obtain ⟨h1, h2⟩ := h
      subst h1 h2
      exact ⟨rfl, (pollRead_none _ _ _ _ heq).1, trivial, (pollRead_none _ _ _ _ heq).2⟩
    · simp at h
    · split at h <;> simp at h
  | .Length offset buf =>
    simp only [streamStep] at h
    split at h
    · split at h
      · rename_i h4 x u0 heq
        simp at h
        obtain ⟨h1, h2⟩ := h
        subst h1 h2
        exact ⟨rfl, (pollRead_none _ _ _ _ heq).1, h4, (pollRead_none _ _ _ _ heq).2⟩
      · simp at h
      · simp at h
    · simp at h
  | .Id offset buf length =>
    simp only [streamStep] at h
    split at h
    · split at h
      · rename_i h4 x u0 heq
        simp at h
        obtain ⟨h1, h2⟩ := h
        subst h1 h2
        exact ⟨rfl, (pollRead_none _ _ _ _ heq).1, h4, (pollRead_none _ _ _ _ heq).2⟩
      · simp at h
      · simp at h
    · split at h <;> simp at h
  | .Data length =>
    simp only [streamStep] at h
    split at h
    · split at h
      · rename_i hd x u0 heq
        simp at h
        obtain ⟨h1, h2⟩ := h
        subst h1 h2
        exact ⟨rfl, (pollRead_none _ _ _ _ heq).1, hd, (pollRead_none _ _ _ _ heq).2⟩
      · simp at h
      · simp at h
    · simp at h

/-- A `cont` step of the stream machine preserves the reachable-state
invariant and the denoted byte stream, consumes at most one schedule entry,
and never grows the source. -/
theorem streamStep_cont_sim {s : CodecStream} {sched : List ReadStep}
    {s' : CodecStream} {u : Nat} (hwf : wfStream s) (hpos : posSched sched)
    (h : streamStep s sched = .cont s' u) :
    wfStream s' ∧ pseudoInput s' = pseudoInput s ∧ u ≤ sched.length ∧
      s'.input.length ≤ s.input.length := by
  obtain ⟨input, st, meta, dat⟩ := s
  obtain ⟨hin, hst⟩ := hwf
  match st with
  | .Flags =>
    simp only [streamStep] at h
    split at h
    · simp at h
    · simp at h
    · rename_i x k u0 heq
      split at h
      · simp at h
      · rename_i hflag
        simp at h
        obtain ⟨h1, h2⟩ := h
        subst h1 h2
        have hs := pollRead_spec _ _ _ _ _ heq
        match input, hs with
        | b :: t, hs =>
          simp only [List.headD_cons] at hflag ⊢
          simp only [Metadata.is_unused_packet, TYPE, TYPE_UNUSED] at hflag
          refine ⟨⟨?_, by omega, by simp, ?_, ?_, ?_⟩, ?_, ?_, ?_⟩
          · intro x hx
            simp at hx
            exact hin x (List.mem_cons_of_mem _ hx)
          · intro x hx
            simp at hx
            omega
          · simpa using hflag
          · exact hin b (by simp)
          · simp [pseudoInput]
          · omega
          · simp
  | .Length offset buf =>
    obtain ⟨ho4, hlen4, hbufwf, hfne, hf256⟩ := hst
    simp only [streamStep] at h
    split at h
    · split at h
      · simp at h
      · simp at h
      · rename_i h4 x k u0 heq
        simp at h
        obtain ⟨h1, h2⟩ := h
        subst h1 h2
        have hs := pollRead_spec _ _ _ _ _ heq
        have htake : (input.take (k + 1)).length = k + 1 := by
          simp
          omega
        refine ⟨⟨?_, by omega, ?_, ?_, hfne, hf256⟩, ?_, by omega, by simp⟩
        · exact wfBytes_drop _ _ hin
        · rw [setSlice_length _ _ _ (by rw [htake]; omega)]
          exact hlen4
        · exact setSlice_wf _ _ _ hbufwf (wfBytes_take _ _ hin)
        · simp only [pseudoInput]
          rw [show offset + (k + 1) = offset + (input.take (k + 1)).length from by rw [htake]]
          rw [setSlice_take _ _ _ (by rw [htake]; omega) (by omega)]
          rw [List.append_assoc, List.take_append_drop]
    · rename_i h4
      simp at h
      obtain ⟨h1, h2⟩ := h
      subst h1 h2
      match buf, hlen4 with
      | [b0, b1, b2, b3], _ =>
        have hb0 := hbufwf b0 (by simp)
        have hb1 := hbufwf b1 (by simp)
        have hb2 := hbufwf b2 (by simp)
        have hb3 := hbufwf b3 (by simp)
        have htk : List.take offset [b0, b1, b2, b3] = [b0, b1, b2, b3] :=
          List.take_of_length_le (by simp; omega)
        refine ⟨⟨hin, ?_⟩, ?_, by omega, le_refl _⟩
        · refine ⟨by omega, by simp, ?_, hfne, hf256, ?_⟩
          · intro x hx
            simp at hx
            omega
          · exact beU32_lt _ hbufwf (by simp)
        · simp only [pseudoInput]
          rw [u32ToBeBytes_beU32 _ _ _ _ hb0 hb1 hb2 hb3, htk]
          simp
  | .Id offset buf length =>
    obtain ⟨ho4, hlen4, hbufwf, hfne, hf256, hlen32⟩ := hst
    simp only [streamStep] at h
    split at h
    · split at h
      · simp at h
      · simp at h
      · rename_i h4 x k u0 heq
        simp at h
        obtain ⟨h1, h2⟩ := h
        subst h1 h2
        have hs := pollRead_spec _ _ _ _ _ heq
        have htake : (input.take (k + 1)).length = k + 1 := by
          simp
          omega
        refine ⟨⟨?_, by omega, ?_, ?_, hfne, hf256, hlen32⟩, ?_, by omega, by simp⟩
        · exact wfBytes_drop _ _ hin
        · rw [setSlice_length _ _ _ (by rw [htake]; omega)]
          exact hlen4
        · exact setSlice_wf _ _ _ hbufwf (wfBytes_take _ _ hin)
        · simp only [pseudoInput]
          rw [show offset + (k + 1) = offset + (input.take (k + 1)).length from by rw [htake]]
          rw [setSlice_take _ _ _ (by rw [htake]; omega) (by omega)]
          rw [List.append_assoc, List.take_append_drop]
    · rename_i h4
      split at h
      · simp at h
      · rename_i hcond
        simp at h
        obtain ⟨h1, h2⟩ := h
        subst h1 h2
        match buf, hlen4 with
        | [b0, b1, b2, b3], _ =>
          have hb0 := hbufwf b0 (by simp)
          have hb1 := hbufwf b1 (by simp)
          have hb2 := hbufwf b2 (by simp)
          have hb3 := hbufwf b3 (by simp)
          have hbu := beU32_lt [b0, b1, b2, b3] hbufwf (by simp)
          have hrange := beI32_range [b0, b1, b2, b3]
          have htk : List.take offset [b0, b1, b2, b3] = [b0, b1, b2, b3] :=
            List.take_of_length_le (by simp; omega)
          refine ⟨⟨hin, hfne, hf256, hlen32, hrange.1, hrange.2 hbu,
              ⟨[], rfl, by simp, by intro x hx; simp at hx⟩, ?_⟩, ?_, by omega, le_refl _⟩
          · intro hc
            exact hcond ⟨hc.1, hc.2.1, hc.2.2⟩
          · simp only [pseudoInput]
            rw [i32ToBeBytes_beI32 _ _ _ _ hb0 hb1 hb2 hb3, htk]
            simp
  | .Data length =>
    obtain ⟨hfne, hf256, hlen32, hid1, hid2, ⟨d0, hdat, hdlen, hdwf⟩, hnz⟩ := hst
    subst hdat
    simp only [streamStep] at h
    split at h
    · split at h
      · simp at h
      · simp at h
      · rename_i hd x k u0 heq
        simp at h
        obtain ⟨h1, h2⟩ := h
        subst h1 h2
        simp only [Option.getD_some] at heq hd
        have hs := pollRead_spec _ _ _ _ _ heq
        have htake : (input.take (k + 1)).length = k + 1 := by
          simp
          omega
        refine ⟨⟨?_, hfne, hf256, hlen32, hid1, hid2, ⟨d0 ++ input.take (k + 1), by simp, ?_, ?_⟩, hnz⟩, ?_, by omega, by simp⟩
        · exact wfBytes_drop _ _ hin
        · simp
          omega
        · exact wfBytes_append _ _ hdwf (wfBytes_take _ _ hin)
        · simp only [pseudoInput, Option.getD_some, List.append_assoc, List.take_append_drop]
    · simp at h

theorem decodeAllAtOnce_nil : decodeAllAtOnce [] = ([], .fail .unexpectedEof) := by
  rw [decodeAllAtOnce]

theorem decodeAllAtOnce_reserved (b : Nat) (rest : List Nat) (hb : b &&& 3 = 3) :
    decodeAllAtOnce (b :: rest) = ([], .fail .invalidData) := by
  rw [decodeAllAtOnce]
  simp [TYPE, TYPE_UNUSED, hb]

theorem decodeAllAtOnce_short (b : Nat) (rest : List Nat) (hb : b &&& 3 ≠ 3)
    (hlen : rest.length < 8) :
    decodeAllAtOnce (b :: rest) = ([], .fail .unexpectedEof) := by
  rw [decodeAllAtOnce]
  simp [TYPE, TYPE_UNUSED, hb, hlen]

/-- Field decomposition of a re-assembled header + body + remainder. -/
theorem shaped_fields (len : Nat) (id : Int) (X input2 : List Nat) :
    (u32ToBeBytes len ++ (i32ToBeBytes id ++ (X ++ input2))).take 4 = u32ToBeBytes len ∧
    ((u32ToBeBytes len ++ (i32ToBeBytes id ++ (X ++ input2))).drop 4).take 4 = i32ToBeBytes id ∧
    (u32ToBeBytes len ++ (i32ToBeBytes id ++ (X ++ input2))).drop 8 = X ++ input2 ∧
    (u32ToBeBytes len ++ (i32ToBeBytes id ++ (X ++ input2))).length =
      8 + (X.length + input2.length) := by
  refine ⟨List.take_left' (u32ToBeBytes_length len), ?_, ?_, ?_⟩
  · rw [List.drop_left' (u32ToBeBytes_length len)]
    exact List.take_left' (i32ToBeBytes_length id)
  · rw [show (8 : Nat) = 4 + 4 from rfl, ← List.drop_drop]
    rw [List.drop_left' (u32ToBeBytes_length len)]
    rw [List.drop_left' (i32ToBeBytes_length id)]
  · simp [u32ToBeBytes, i32ToBeBytes]
    omega

/-- Decoding a re-assembled full packet followed by anything. -/
theorem decodeAllAtOnce_packet (flags len : Nat) (id : Int) (d input2 : List Nat)
    (hf : flags &&& 3 ≠ 3) (hlen : len < 2 ^ 32) (hd : d.length = len)
    (hid1 : -2 ^ 31 ≤ id) (hid2 : id < 2 ^ 31)
    (hnz : ¬(len = 0 ∧ flags = 0 ∧ id = 0)) :
    decodeAllAtOnce (flags :: (u32ToBeBytes len ++ (i32ToBeBytes id ++ (d ++ input2)))) =
      ((d, ⟨flags, id⟩) :: (decodeAllAtOnce input2).1, (decodeAllAtOnce input2).2) := by
  obtain ⟨ht4, hd4, hd8, hL⟩ := shaped_fields len id d input2
  rw [decodeAllAtOnce]
  simp only [TYPE, TYPE_UNUSED, ht4, hd4, hd8, hL]
  rw [if_neg hf, if_neg (by omega)]
  rw [beU32_u32ToBeBytes len hlen, beI32_i32ToBeBytes id hid1 hid2]
  rw [if_neg hnz, if_neg (by simp; omega)]
  rw [List.take_left' hd, List.drop_left' hd]

/-- Decoding a re-assembled packet whose body is cut short fails with
end-of-input. -/
theorem decodeAllAtOnce_body_eof (flags len : Nat) (id : Int) (d : List Nat)
    (hf : flags &&& 3 ≠ 3) (hlen : len < 2 ^ 32) (hd : d.length < len)
    (hid1 : -2 ^ 31 ≤ id) (hid2 : id < 2 ^ 31)
    (hnz : ¬(len = 0 ∧ flags = 0 ∧ id = 0)) :
    decodeAllAtOnce (flags :: (u32ToBeBytes len ++ (i32ToBeBytes id ++ (d ++ [])))) =
      ([], .fail .unexpectedEof) := by
  obtain ⟨ht4, hd4, hd8, hL⟩ := shaped_fields len id d []
  rw [decodeAllAtOnce]
  simp only [TYPE, TYPE_UNUSED, ht4, hd4, hd8, hL]
  rw [if_neg hf, if_neg (by omega)]
  rw [beU32_u32ToBeBytes len hlen, beI32_i32ToBeBytes id hid1 hid2]
  rw [if_neg hnz, if_pos (by simp; omega)]

/-- Decoding a re-assembled all-zero header ends the sequence. -/
theorem decodeAllAtOnce_marker (buf input2 : List Nat) (hb : buf.length = 4)
    (hbe : beI32 buf = 0) :
    decodeAllAtOnce (0 :: (u32ToBeBytes 0 ++ (buf ++ input2))) = ([], .ended) := by
  have ht4 : (u32ToBeBytes 0 ++ (buf ++ input2)).take 4 = u32ToBeBytes 0 :=
    List.take_left' (u32ToBeBytes_length 0)
  have hd4 : ((u32ToBeBytes 0 ++ (buf ++ input2)).drop 4).take 4 = buf := by
    rw [List.drop_left' (u32ToBeBytes_length 0)]
    exact List.take_left' hb
  have hL : (u32ToBeBytes 0 ++ (buf ++ input2)).length = 8 + input2.length := by
    simp [u32ToBeBytes]
    omega
  rw [decodeAllAtOnce]
  simp only [TYPE, TYPE_UNUSED, ht4, hd4, hL]
  rw [if_neg (by decide), if_neg (by omega)]
  rw [beU32_u32ToBeBytes 0 (by norm_num), hbe]
  rw [if_pos (⟨by simp, by simp, by simp⟩ : _ ∧ _ ∧ _)]

/-- A failing step denotes the same failure as all-at-once decoding of the
re-assembled stream. -/
theorem streamStep_fail_sim {s : CodecStream} {sched : List ReadStep}
    {e : ErrKind} {s' : CodecStream} {u : Nat} {z : Bool}
    (hwf : wfStream s) (hpos : posSched sched)
    (h : streamStep s sched = .fail e s' u z) :
    decodeAllAtOnce (pseudoInput s) = ([], .fail e) ∧ u ≤ sched.length := by
  obtain ⟨input, st, meta, dat⟩ := s
  obtain ⟨hin, hst⟩ := hwf
  match st with
  | .Flags =>
    simp only [streamStep] at h
    split at h
    · simp at h
    · rename_i x u0 heq
      simp at h
      obtain ⟨h1, h2, h3, h4⟩ := h
      subst h1 h3
      have hnil := pollRead_zero _ _ _ _ hpos (by omega) heq
      subst hnil
      have hs := pollRead_spec _ _ _ _ _ heq
      exact ⟨by simp [pseudoInput, decodeAllAtOnce_nil], by omega⟩
    · rename_i x k u0 heq
      split at h
      · rename_i hflag
        simp at h
        obtain ⟨h1, h2, h3, h4⟩ := h
        subst h1 h3
        have hs := pollRead_spec _ _ _ _ _ heq
        match input, hs with
        | b :: t, hs =>
          simp only [List.headD_cons, Metadata.is_unused_packet, TYPE, TYPE_UNUSED] at hflag
          refine ⟨?_, by omega⟩
          simp only [pseudoInput]
          exact decodeAllAtOnce_reserved b t (by simpa using hflag)
      · simp at h
  | .Length offset buf =>
    obtain ⟨ho4, hlen4, hbufwf, hfne, hf256⟩ := hst
    simp only [streamStep] at h
    split at h
    · rename_i h4
      split at h
      · simp at h
      · rename_i x u0 heq
        simp at h
        obtain ⟨h1, h2, h3, h4⟩ := h
        subst h1 h3
        have hnil := pollRead_zero _ _ _ _ hpos (by omega) heq
        subst hnil
        have hs := pollRead_spec _ _ _ _ _ heq
        refine ⟨?_, by omega⟩
        simp only [pseudoInput]
        exact decodeAllAtOnce_short _ _ hfne (by simp; omega)
      · simp at h
    · simp at h
  | .Id offset buf length =>
    obtain ⟨ho4, hlen4, hbufwf, hfne, hf256, hlen32⟩ := hst
    simp only [streamStep] at h
    split at h
    · rename_i h4
      split at h
      · simp at h
      · rename_i x u0 heq
        simp at h
        obtain ⟨h1, h2, h3, h4⟩ := h
        subst h1 h3
        have hnil := pollRead_zero _ _ _ _ hpos (by omega) heq
        subst hnil
        have hs := pollRead_spec _ _ _ _ _ heq
        refine ⟨?_, by omega⟩
        simp only [pseudoInput]
        exact decodeAllAtOnce_short _ _ hfne (by simp [u32ToBeBytes]; omega)
      · simp at h
    · split at h <;> simp at h
  | .Data length =>
    obtain ⟨hfne, hf256, hlen32, hid1, hid2, ⟨d0, hdat, hdlen, hdwf⟩, hnz⟩ := hst
    subst hdat
    simp only [streamStep] at h
    split at h
    · rename_i hd
      split at h
      · simp at h
      · rename_i x u0 heq
        simp at h
        obtain ⟨h1, h2, h3, h4⟩ := h
        subst h1 h3
        simp only [Option.getD_some] at heq hd
        have hnil := pollRead_zero _ _ _ _ hpos (by omega) heq
        subst hnil
        have hs := pollRead_spec _ _ _ _ _ heq
        refine ⟨?_, by omega⟩
        simp only [pseudoInput, Option.getD_some]
        exact decodeAllAtOnce_body_eof _ _ _ _ hfne hlen32 hd hid1 hid2 hnz
      · simp at h
    · simp at h

/-- An `ended` step denotes a normally-ending stream under all-at-once
decoding, and consumes nothing. -/
theorem streamStep_ended_sim {s : CodecStream} {sched : List ReadStep}
    {s' : CodecStream} {u : Nat} (hwf : wfStream s)
    (h : streamStep s sched = .ended s' u) :
    decodeAllAtOnce (pseudoInput s) = ([], .ended) ∧ u = 0 := by
  obtain ⟨input, st, meta, dat⟩ := s
  obtain ⟨hin, hst⟩ := hwf
  match st with
  | .Flags =>
    simp only [streamStep] at h
    split at h
    · simp at h
    · simp at h
    · split at h <;> simp at h
  | .Length offset buf =>
    simp only [streamStep] at h
    split at h
    · split at h <;> simp at h
    · simp at h
  | .Id offset buf length =>
    obtain ⟨ho4, hlen4, hbufwf, hfne, hf256, hlen32⟩ := hst
    simp only [streamStep] at h
    split at h
    · split at h <;> simp at h
    · rename_i h4
      split at h
      · rename_i hcond
        simp at h
        obtain ⟨-, h2⟩ := h
        obtain ⟨hc1, hc2, hc3⟩ := hcond
        refine ⟨?_, h2.symm⟩
        simp only [pseudoInput, hc1, hc2]
        rw [List.take_of_length_le (by omega)]
        exact decodeAllAtOnce_marker buf input hlen4 hc3
      · simp at h
  | .Data length =>
    simp only [streamStep] at h
    split at h
    · split at h <;> simp at h
    · simp at h

/-- A yielding step denotes a stream whose all-at-once decoding starts with
exactly the yielded element, and leaves a well-formed `Flags` machine on
the unconsumed source. -/
theorem streamStep_item_sim {s : CodecStream} {sched : List ReadStep}
    {d : List Nat} {m : Metadata} {s' : CodecStream} {u : Nat}
    (hwf : wfStream s) (h : streamStep s sched = .item d m s' u) :
    decodeAllAtOnce (pseudoInput s) =
        ((d, m) :: (decodeAllAtOnce s'.input).1, (decodeAllAtOnce s'.input).2) ∧
      s'.state = .Flags ∧ wfStream s' ∧ u = 0 ∧ s'.input = s.input := by
  obtain ⟨input, st, meta, dat⟩ := s
  obtain ⟨hin, hst⟩ := hwf
  match st with
  | .Flags =>
    simp only [streamStep] at h
    split at h
    · simp at h
    · simp at h
    · split at h <;> simp at h
  | .Length offset buf =>
    simp only [streamStep] at h
    split at h
    · split at h <;> simp at h
    · simp at h
  | .Id offset buf length =>
    simp only [streamStep] at h
    split at h
    · split at h <;> simp at h
    · split at h <;> simp at h
  | .Data length =>
    obtain ⟨hfne, hf256, hlen32, hid1, hid2, ⟨d0, hdat, hdlen, hdwf⟩, hnz⟩ := hst
    subst hdat
    simp only [streamStep] at h
    split at h
    · split at h <;> simp at h
    · rename_i hd
      simp only [Option.getD_some] at hd
      simp at h
      obtain ⟨h1, h2, h3, h4⟩ := h
      subst h1 h2 h4
      have hdl : d0.length = length := by omega
      refine ⟨?_, by rw [← h3], ⟨by rw [← h3]; exact hin, by rw [← h3]; trivial⟩, rfl, by rw [← h3]⟩
      rw [← h3]
      simp only [pseudoInput, Option.getD_some]
      exact decodeAllAtOnce_packet meta.flags length meta.id d0 input hfne hlen32 hdl hid1 hid2 hnz

theorem posSched_drop (sched : List ReadStep) (u : Nat) (h : posSched sched) :
    posSched (sched.drop u) :=
  fun n hn => h n (List.mem_of_mem_drop hn)

theorem pseudoInput_flags (s : CodecStream) (h : s.state = .Flags) :
    pseudoInput s = s.input := by
  obtain ⟨input, st, meta, dat⟩ := s
  simp only at h
  subst h
  rfl

theorem entryState_flags (s : CodecStream) (h : s.state = .Flags) :
    entryState s := by
  obtain ⟨input, st, meta, dat⟩ := s
  simp only at h
  subst h
  trivial

/-- From an incomplete-field state, a greedy continuing step consumes at
least one source byte. -/
theorem streamStep_entry_read {s : CodecStream} {sched : List ReadStep}
    {s' : CodecStream} {u : Nat} (hE : entryState s)
    (h : streamStep s sched = .cont s' u) (hu : u = 0) :
    s'.input.length < s.input.length := by
  subst hu
  obtain ⟨input, st, meta, dat⟩ := s
  match st with
  | .Flags =>
    simp only [streamStep] at h
    split at h
    · simp at h
    · simp at h
    · rename_i x k u0 heq
      split at h
      · simp at h
      · simp at h
        obtain ⟨h1, h2⟩ := h
        subst h1
        have hs := pollRead_spec _ _ _ _ _ heq
        simp
        omega
  | .Length offset buf =>
    simp only [streamStep] at h
    split at h
    · split at h
      · simp at h
      · simp at h
      · rename_i h4 x k u0 heq
        simp at h
        obtain ⟨h1, h2⟩ := h
        subst h1
        have hs := pollRead_spec _ _ _ _ _ heq
        simp
        omega
    · rename_i h4
      exact absurd hE h4
  | .Id offset buf length =>
    simp only [streamStep] at h
    split at h
    · split at h
      · simp at h
      · simp at h
      · rename_i h4 x k u0 heq
        simp at h
        obtain ⟨h1, h2⟩ := h
        subst h1
        have hs := pollRead_spec _ _ _ _ _ heq
        simp
        omega
    · rename_i h4
      exact absurd hE h4
  | .Data length =>
    simp only [streamStep] at h
    split at h
    · split at h
      · simp at h
      · simp at h
      · rename_i hd x k u0 heq
        simp at h
        obtain ⟨h1, h2⟩ := h
        subst h1
        have hs := pollRead_spec _ _ _ _ _ heq
        simp
        omega
    · rename_i hd
      exact absurd hE hd

/-- From an incomplete-field state, a step never yields an element. -/
theorem streamStep_entry_not_item {s : CodecStream} {sched : List ReadStep}
    {d : List Nat} {m : Metadata} {s' : CodecStream} {u : Nat}
    (hE : entryState s) (h : streamStep s sched = .item d m s' u) : False := by
  obtain ⟨input, st, meta, dat⟩ := s
  match st with
  | .Flags =>
    simp only [streamStep] at h
    split at h
    · simp at h
    · simp at h
    · split at h <;> simp at h
  | .Length offset buf =>
    simp only [streamStep] at h
    split at h
    · split at h <;> simp at h
    · simp at h
  | .Id offset buf length =>
    simp only [streamStep] at h
    split at h
    · split at h <;> simp at h
    · split at h <;> simp at h
  | .Data length =>
    simp only [streamStep] at h
    split at h
    · split at h <;> simp at h
    · rename_i hd
      exact absurd hE hd

/-- A whole pull simulates all-at-once decoding of the re-assembled
stream: it suspends preserving the denotation, errors or ends exactly as
the all-at-once decode does, or yields precisely its first element. -/
theorem tryPollNext_sim (s : CodecStream) (sched : List ReadStep)
    (hwf : wfStream s) (hpos : posSched sched) :
    (tryPollNext s sched).used ≤ sched.length ∧
    (match (tryPollNext s sched).res with
     | .pending =>
         pseudoInput (tryPollNext s sched).strm = pseudoInput s ∧
         1 ≤ (tryPollNext s sched).used ∧ entryState (tryPollNext s sched).strm ∧
         wfStream (tryPollNext s sched).strm ∧
         (tryPollNext s sched).strm.input.length ≤ s.input.length
     | .item d m =>
         decodeAllAtOnce (pseudoInput s) =
           ((d, m) :: (decodeAllAtOnce (tryPollNext s sched).strm.input).1,
             (decodeAllAtOnce (tryPollNext s sched).strm.input).2) ∧
         (tryPollNext s sched).strm.state = .Flags ∧
         wfStream (tryPollNext s sched).strm ∧
         (tryPollNext s sched).strm.input.length ≤ s.input.length
     | .ended => decodeAllAtOnce (pseudoInput s) = ([], .ended)
     | .err e => decodeAllAtOnce (pseudoInput s) = ([], .fail e)) := by
  induction s, sched using tryPollNext.induct with
  | case1 s sched s' u hstep ih =>
    obtain ⟨hwf', hps, hu, hmono⟩ := streamStep_cont_sim hwf hpos hstep
    obtain ⟨ihu, ihm⟩ := ih hwf' (posSched_drop _ _ hpos)
    rw [tryPollNext_cont hstep]
    have hdu : (sched.drop u).length = sched.length - u := List.length_drop u sched
    rcases htp : tryPollNext s' (sched.drop u) with ⟨res, strm, used, zr⟩
    rw [htp] at ihu ihm
    simp only at ihu ihm ⊢
    refine ⟨by omega, ?_⟩
    cases res with
    | pending =>
      exact ⟨ihm.1.trans hps, by omega, ihm.2.2.1, ihm.2.2.2.1,
        le_trans ihm.2.2.2.2 hmono⟩
    | ended =>
      rw [hps] at ihm
      exact ihm
    | item d m =>
      rw [hps] at ihm
      exact ⟨ihm.1, ihm.2.1, ihm.2.2.1, le_trans ihm.2.2.2 hmono⟩
    | err e =>
      rw [hps] at ihm
      exact ihm
  | case2 s sched s' u hstep =>
    obtain ⟨he1, he2, he3, he4⟩ := streamStep_pend_sim hstep
    subst he1 he2
    rw [tryPollNext_pend hstep]
    exact ⟨he4, rfl, le_refl _, he3, hwf, le_refl _⟩
  | case3 s sched e s' u z hstep =>
    obtain ⟨hdec, hu⟩ := streamStep_fail_sim hwf hpos hstep
    rw [tryPollNext_fail hstep]
    exact ⟨hu, hdec⟩
  | case4 s sched s' u hstep =>
    obtain ⟨hdec, hu⟩ := streamStep_ended_sim hwf hstep
    rw [tryPollNext_ended hstep]
    exact ⟨by simp [hu], hdec⟩
  | case5 s sched d m s' u hstep =>
    obtain ⟨hdec, hfl, hwf', hu, hinp⟩ := streamStep_item_sim hwf hstep
    rw [tryPollNext_item hstep]
    exact ⟨by simp [hu], hdec, hfl, hwf', by rw [hinp]⟩

/-- Every pull from a pull-entry state makes progress: it consumes a
schedule entry or a source byte, unless it terminates the sequence. -/
theorem tryPollNext_progress (s : CodecStream) (sched : List ReadStep)
    (hwf : wfStream s) (hpos : posSched sched) (hE : entryState s) :
    1 ≤ (tryPollNext s sched).used ∨
      (tryPollNext s sched).strm.input.length < s.input.length ∨
      (tryPollNext s sched).res = .ended ∨
      (∃ e, (tryPollNext s sched).res = .err e) := by
  rcases hstep : streamStep s sched with ⟨s', u⟩ | ⟨s', u⟩ | ⟨e, s', u, z⟩ | ⟨s', u⟩ | ⟨d, m, s', u⟩
  · rw [tryPollNext_cont hstep]
    by_cases hu : u = 0
    · subst hu
      have hlt := streamStep_entry_read hE hstep rfl
      obtain ⟨hwf', hps, hub, hmono⟩ := streamStep_cont_sim hwf hpos hstep
      obtain ⟨ihu, ihm⟩ := tryPollNext_sim s' (sched.drop 0) hwf' (posSched_drop _ _ hpos)
      rcases htp : tryPollNext s' (sched.drop 0) with ⟨res, strm, used, zr⟩
      rw [htp] at ihu ihm
      simp only at ihu ihm ⊢
      cases res with
      | pending =>
        right
        left
        have := ihm.2.2.2.2
        omega
      | ended =>
        right
        right
        left
        rfl
      | item d m =>
        right
        left
        have := ihm.2.2.2
        omega
      | err e =>
        right
        right
        right
        exact ⟨e, rfl⟩
    · left
      simp only
      omega
  · obtain ⟨h1, h2, h3, h4⟩ := streamStep_pend_sim hstep
    rw [tryPollNext_pend hstep]
    left
    simp [h2]
  · rw [tryPollNext_fail hstep]
    right
    right
    right
    exact ⟨e, rfl⟩
  · rw [tryPollNext_ended hstep]
    right
    right
    left
    rfl
  · exact absurd hstep (fun hc => streamStep_entry_not_item hE hc)

/-- Repeatedly pulling, under any schedule and with enough fuel, produces
exactly the all-at-once decoding of the re-assembled stream. -/
theorem runStream_sim : ∀ (fuel : Nat) (s : CodecStream) (sched : List ReadStep),
    wfStream s → entryState s → posSched sched →
    sched.length + s.input.length < fuel →
    runStream s sched fuel =
      ((decodeAllAtOnce (pseudoInput s)).1, some (decodeAllAtOnce (pseudoInput s)).2) := by
  intro fuel
  induction fuel with
  | zero =>
    intro s sched _ _ _ h
    omega
  | succ fuel ih =>
    intro s sched hwf hE hpos hlt
    obtain ⟨hused, hm⟩ := tryPollNext_sim s sched hwf hpos
    have hprog := tryPollNext_progress s sched hwf hpos hE
    rw [runStream]
    rcases htp : tryPollNext s sched with ⟨res, strm, used, zr⟩
    rw [htp] at hused hm hprog
    simp only at hused hm hprog
    have hdu : (sched.drop used).length = sched.length - used := List.length_drop _ _
    cases res with
    | pending =>
      simp only
      obtain ⟨hps, hu1, hEn, hwf', hmono⟩ := hm
      rw [ih strm (sched.drop used) hwf' hEn (posSched_drop _ _ hpos) (by omega)]
      rw [hps]
    | ended =>
      simp only
      rw [hm]
    | err e =>
      simp only
      rw [hm]
    | item d m =>
      simp only
      obtain ⟨hdec, hfl, hwf', hmono⟩ := hm
      have hprog2 : 1 ≤ used ∨ strm.input.length < s.input.length := by
        rcases hprog with h | h | h | ⟨e, h⟩
        · exact Or.inl h
        · exact Or.inr h
        · cases h
        · cases h
      rw [ih strm (sched.drop used) hwf' (entryState_flags _ hfl)
        (posSched_drop _ _ hpos) (by omega)]
      rw [pseudoInput_flags _ hfl]
      rw [hdec]

/-- C8: the decoded result is independent of how the underlying channel
chunks the bytes.  For every byte source, every way of splitting it into
positive partial reads with interspersed "not ready" suspensions, and any
sufficient number of pulls, driving the decoder produces exactly the
elements, termination and error of decoding the bytes delivered all at
once: suspension and partial reads preserve per-field progress exactly. -/
theorem c8_partial_io_refinement (input : List Nat) (sched : List ReadStep)
    (fuel : Nat) (hb : wfBytes input) (hpos : posSched sched)
    (hfuel : sched.length + input.length < fuel) :
    runStream (CodecStream.new input) sched fuel =
      ((decodeAllAtOnce input).1, some (decodeAllAtOnce input).2) :=
  runStream_sim fuel (CodecStream.new input) sched ⟨hb, trivial⟩ trivial hpos hfuel

/-- C8 witness: a packet plus the end-of-stream marker, delivered through
1-byte and 2-byte reads with interspersed suspensions, decodes as when
delivered all at once. -/
theorem c8_partial_io_refinement_witness :
    wfBytes [0, 0, 0, 0, 1, 0, 0, 0, 7, 65, 0, 0, 0, 0, 0, 0, 0, 0, 0] ∧
      posSched [.pending, .chunk 1, .pending, .chunk 2, .chunk 100] ∧
      runStream (CodecStream.new [0, 0, 0, 0, 1, 0, 0, 0, 7, 65, 0, 0, 0, 0, 0, 0, 0, 0, 0])
          [.pending, .chunk 1, .pending, .chunk 2, .chunk 100] 30 =
        ((decodeAllAtOnce [0, 0, 0, 0, 1, 0, 0, 0, 7, 65, 0, 0, 0, 0, 0, 0, 0, 0, 0]).1,
          some (decodeAllAtOnce [0, 0, 0, 0, 1, 0, 0, 0, 7, 65, 0, 0, 0, 0, 0, 0, 0, 0, 0]).2) :=
  ⟨by decide,
    by
      intro n hn
      simp at hn
      omega,
    c8_partial_io_refinement _ _ _ (by decide)
      (by
        intro n hn
        simp at hn
        omega)
      (by simp)⟩
